import Mathlib

/-!
# Verification of the code-block toggle command

Shallow embedding of `src/codeblockcommand.js` (and the schema rules that
`src/codeblockediting.js` registers).  The document model is a tree of
elements: the root holds a list of items, each item being either a plain
block element (`Item.blk`, e.g. a paragraph, identified by a number) or a
`codeBlock` container element (`Item.cb`) holding a list of child items.

Positions, ranges, the grouping scan `getRangesOfBlockGroups`, the unwrap
path `_removeBlock`, the wrap path `_applyBlock` (with its forward merge
pass over recorded element references) and the command state (`refresh`,
`_getValue`, `_checkEnabled`, `checkCanBeBlocked`) are translated from the
source.  Engine node references are represented by indices; processing
groups in reverse document order keeps not-yet-processed indices valid,
exactly as the source relies on for its `Position`s.
-/

namespace CodeBlockCmd

/-- A root-level item: a plain block element (with an identifying payload)
or a `codeBlock` container element with its children. -/
inductive Item where
  | blk : Nat → Item
  | cb : List Item → Item
deriving Repr

mutual

def decEqItem : (a b : Item) → Decidable (a = b)
  | .blk m, .blk n =>
    match Nat.decEq m n with
    | isTrue h => isTrue (by rw [h])
    | isFalse h => isFalse (by intro k; injection k; contradiction)
  | .blk _, .cb _ => isFalse (by intro k; exact Item.noConfusion k)
  | .cb _, .blk _ => isFalse (by intro k; exact Item.noConfusion k)
  | .cb xs, .cb ys =>
    match decEqItemList xs ys with
    | isTrue h => isTrue (by rw [h])
    | isFalse h => isFalse (by intro k; injection k; contradiction)

def decEqItemList : (a b : List Item) → Decidable (a = b)
  | [], [] => isTrue rfl
  | [], _ :: _ => isFalse (by intro k; exact List.noConfusion k)
  | _ :: _, [] => isFalse (by intro k; exact List.noConfusion k)
  | x :: xs, y :: ys =>
    match decEqItem x y, decEqItemList xs ys with
    | isTrue h1, isTrue h2 => isTrue (by rw [h1, h2])
    | isFalse h1, _ => isFalse (by intro k; injection k; contradiction)
    | _, isFalse h2 => isFalse (by intro k; injection k; contradiction)

end

instance : DecidableEq Item := decEqItem

/-- The document: the root element's list of children. -/
abbrev Doc := List Item

/-- The location of a selected block element: either the `i`-th child of the
root, or the `j`-th child of the container sitting at root index `i`. -/
inductive Loc where
  | root : Nat → Loc
  | inCb : Nat → Nat → Loc
deriving DecidableEq, Repr

def isCbItem : Item → Bool
  | .cb _ => true
  | .blk _ => false

def isBlkItem : Item → Bool
  | .blk _ => true
  | .cb _ => false

/-- A model `Position`: the parent element (`none` = the root, `some i` =
the element at root index `i`) and an offset in that parent's child list. -/
structure Pos where
  parent : Option Nat
  off : Nat
deriving DecidableEq, Repr

/-- A model `Range` between two positions (`stop` is the source's `end`). -/
structure GroupRange where
  start : Pos
  stop : Pos
deriving DecidableEq, Repr

/-- `node.nextSibling`, as a location (`none` when there is no next sibling,
mirroring the engine's `null`). -/
def nextSiblingLoc (doc : Doc) : Loc → Option Loc
  | .root i => if i + 1 < doc.length then some (.root (i + 1)) else none
  | .inCb i j =>
    match doc[i]? with
    | some (.cb cs) => if j + 1 < cs.length then some (.inCb i (j + 1)) else none
    | _ => none

/-- `Position.createBefore( block )`. -/
def posBefore : Loc → Pos
  | .root i => ⟨none, i⟩
  | .inCb i j => ⟨some i, j⟩

/-- `Position.createAfter( block )`. -/
def posAfter : Loc → Pos
  | .root i => ⟨none, i + 1⟩
  | .inCb i j => ⟨some i, j + 1⟩

/-- The body of the `while` loop of `getRangesOfBlockGroups`: scan the block
list once, carrying the pending `startPosition` (`none` when no range is
open), closing a range whenever there is no next input block or the next
input block is not the current block's next sibling. -/
def rangesGo (doc : Doc) : Option Pos → List Loc → List GroupRange
  | _, [] => []
  | startPosition, block :: rest =>
    let sp := startPosition.getD (posBefore block)
    match rest with
    | [] => [⟨sp, posAfter block⟩]
    | nextBlock :: _ =>
      if nextSiblingLoc doc block = some nextBlock then
        rangesGo doc (some sp) rest
      else
        ⟨sp, posAfter block⟩ :: rangesGo doc none rest

/-- `getRangesOfBlockGroups( blocks )`. -/
def getRangesOfBlockGroups (doc : Doc) (blocks : List Loc) : List GroupRange :=
  rangesGo doc none blocks

/-! ## Schema (registered in `codeblockediting.js`)

`codeBlock` is registered with `allowWhere: '$block'` and
`allowContentOf: '$root'`; blocks are paragraphs (`$block`, allowed in
`$root`).  The custom `addChildCheck` disallows `codeBlock` in `codeBlock`
and runs before the base declarative rules. -/

def checkChildName (parentName childName : String) : Bool :=
  -- addChildCheck: disallow codeBlock in codeBlock.
  if parentName = "codeBlock" && childName = "codeBlock" then false
  else
    (childName = "paragraph" || childName = "codeBlock") &&
      (parentName = "$root" || parentName = "codeBlock")

/-- The name of the parent element of a located block. -/
def parentNameOf (doc : Doc) : Loc → String
  | .root _ => "$root"
  | .inCb i _ =>
    match doc[i]? with
    | some (.cb _) => "codeBlock"
    | _ => "$invalid"

/-- `checkCanBeBlocked( schema, block )`: a `codeBlock` must be allowed in
the block's parent, and the block must be allowed inside a `codeBlock`.
All selected blocks are paragraphs in this model.  This is a pure
predicate: it only reads the document. -/
def checkCanBeBlocked (doc : Doc) (block : Loc) : Bool :=
  let isCBAllowed := checkChildName (parentNameOf doc block) "codeBlock"
  let isBlockAllowedInCB := checkChildName "codeBlock" "paragraph"
  isCBAllowed && isBlockAllowedInCB

/-- `findBlock( element )` for a located block: its parent when the parent
is a `codeBlock` element (as a root index), otherwise `null`. -/
def findBlockLoc (doc : Doc) : Loc → Option Nat
  | .root _ => none
  | .inCb i _ =>
    match doc[i]? with
    | some (.cb _) => some i
    | _ => none

/-- `findBlock( position )`: the position's parent when it is a `codeBlock`. -/
def findBlockPos (doc : Doc) (p : Pos) : Option Nat :=
  match p.parent with
  | some i =>
    match doc[i]? with
    | some (.cb _) => some i
    | _ => none
  | none => none

/-- `_getValue()`: the first selected block has a `codeBlock` parent. -/
def getValue (doc : Doc) (sel : List Loc) : Bool :=
  match sel.head? with
  | some firstBlock => (findBlockLoc doc firstBlock).isSome
  | none => false

/-- `_checkEnabled()`. -/
def checkEnabled (doc : Doc) (sel : List Loc) : Bool :=
  if getValue doc sel then true
  else
    match sel.head? with
    | none => false
    | some firstBlock => checkCanBeBlocked doc firstBlock

/-- The command's observable state. -/
structure CommandState where
  value : Bool
  isEnabled : Bool
deriving DecidableEq, Repr

/-- `refresh()`. -/
def refresh (doc : Doc) (sel : List Loc) : CommandState :=
  ⟨getValue doc sel, checkEnabled doc sel⟩

/-- The child list of a position's parent. -/
def childListAt (doc : Doc) (parent : Option Nat) : List Item :=
  match parent with
  | none => doc
  | some i =>
    match doc[i]? with
    | some (.cb cs) => cs
    | _ => []

def posIsAtStart (p : Pos) : Bool := p.off = 0

def posIsAtEnd (doc : Doc) (p : Pos) : Bool := p.off = (childListAt doc p.parent).length

/-- One iteration of `_removeBlock`'s loop, on one group range (whose parent
is a `codeBlock` at a root index).  Case order follows the source:
full range → `writer.unwrap`; range at the container's start →
`writer.move` before the container; otherwise `writer.split` after the
range end when needed, then `writer.move` after the truncated container. -/
def removeGroup (doc : Doc) (g : GroupRange) : Doc :=
  if posIsAtStart g.start && posIsAtEnd doc g.stop then
    -- writer.unwrap( groupRange.start.parent )
    match g.start.parent with
    | some i =>
      (match doc[i]? with
       | some (.cb cs) => doc.take i ++ cs ++ doc.drop (i + 1)
       | _ => doc)
    | none => doc
  else if posIsAtStart g.start then
    -- writer.move( groupRange, Position.createBefore( groupRange.start.parent ) )
    match g.start.parent with
    | some i =>
      (match doc[i]? with
       | some (.cb cs) =>
          doc.take i ++ cs.take g.stop.off ++ Item.cb (cs.drop g.stop.off) :: doc.drop (i + 1)
       | _ => doc)
    | none => doc
  else
    -- writer.split( groupRange.end ) when the end is not at the container's
    -- end, then writer.move( groupRange, Position.createAfter( groupRange.end.parent ) )
    match g.stop.parent with
    | some i =>
      (match doc[i]? with
       | some (.cb cs) =>
          doc.take i ++ Item.cb (cs.take g.start.off) ::
            ((cs.drop g.start.off).take (g.stop.off - g.start.off) ++
              ((if g.stop.off < cs.length then [Item.cb (cs.drop g.stop.off)] else []) ++
                doc.drop (i + 1)))
       | _ => doc)
    | none => doc

/-- `_removeBlock( writer, blocks )`: group, then process the groups in
reverse document order. -/
def removeBlock (doc : Doc) (blocks : List Loc) : Doc :=
  ((getRangesOfBlockGroups doc blocks).reverse).foldl removeGroup doc

/-- Reference-index adjustment after wrapping `[s, e)` of the root into one
new element: recorded references at indices `≥ e` (all recorded references
point to the right of the group being processed) shift left. -/
def shiftRefs (s e : Nat) (refs : List Nat) : List Nat :=
  refs.map fun r => if e ≤ r then r - (e - s - 1) else r

/-- One iteration of `_applyBlock`'s wrapping loop: reuse the `codeBlock`
containing the range's start, or wrap the range's content in a new
`codeBlock`; record the (root index of the) container.  Recorded indices of
previously processed (rightward) groups are kept pointing at their nodes.
A range inside a non-container element cannot arise for a selection of
block elements and leaves the document unchanged. -/
def applyGroup (st : Doc × List Nat) (g : GroupRange) : Doc × List Nat :=
  let doc := st.1
  let refs := st.2
  match findBlockPos doc g.start with
  | some i => (doc, i :: refs)
  | none =>
    match g.start.parent with
    | none =>
      let s := g.start.off
      let e := g.stop.off
      -- writer.wrap( groupRange, new Element( 'codeBlock' ) );
      -- block = groupRange.start.nodeAfter
      (doc.take s ++ Item.cb ((doc.drop s).take (e - s)) :: doc.drop e,
        s :: shiftRefs s e refs)
    | some i => (doc, i :: refs)

/-- A recorded element reference during the merge pass: a live root index,
or a node detached from the document by a previous merge. -/
inductive Ref where
  | idx : Nat → Ref
  | detached : Ref
deriving DecidableEq, Repr

/-- Reference adjustment after `writer.merge` removed the element that was
at root index `d`: references to it become detached, later ones shift. -/
def detachShift (d : Nat) : Ref → Ref
  | .idx r => if r = d then .detached else if d < r then .idx (r - 1) else .idx r
  | .detached => .detached

/-- `writer.merge( Position.createAfter( currentBlock ) )`: append the right
element's children to the left element and remove the right element. -/
def mergeAt (doc : Doc) (c : Nat) : Doc :=
  match doc[c]?, doc[c+1]? with
  | some (.cb a), some (.cb b) => doc.take c ++ Item.cb (a ++ b) :: doc.drop (c + 2)
  | _, _ => doc

/-- The merge pass (`blocksToMerge.reverse().reduce( ... )`): walk the
recorded references in document order; when the current element's next
sibling is the next recorded reference, merge them and keep comparing from
the merged element.  A detached node has no next sibling and is never the
next sibling of a live node, so no merge fires around it.  Instead of
rewriting the not-yet-visited references after each merge, the pending
adjustment `adj` is applied to each reference as it is consumed (each merge
composes one more `detachShift` onto it); this keeps the recursion
structural and is the identity transformation of the rewrite-as-you-merge
formulation. -/
def mergeStep : Doc → Ref → List Ref → (Ref → Ref) → Doc
  | doc, _, [], _ => doc
  | doc, cur, nextB0 :: rest, adj =>
    match cur, adj nextB0 with
    | .idx c, .idx m =>
      if m = c + 1 then
        mergeStep (mergeAt doc c) (.idx c) rest (fun r => detachShift (c + 1) (adj r))
      else
        mergeStep doc (.idx m) rest adj
    | _, nextB => mergeStep doc nextB rest adj

/-- `_applyBlock( writer, blocks )`: wrap all groups in reverse document
order recording one container per group, then run the forward merge pass.
`Array#reduce` with no initial value throws on an empty array, hence
`none` when no group was recorded. -/
def applyBlock (doc : Doc) (blocks : List Loc) : Option Doc :=
  let st := ((getRangesOfBlockGroups doc blocks).reverse).foldl applyGroup (doc, [])
  match st.2 with
  | [] => none
  | r :: rest => some (mergeStep st.1 (.idx r) (rest.map .idx) id)

/-- `execute()`: dispatch on the current value; unwrap the blocks that are
in a `codeBlock`, or wrap the blocks that are in a `codeBlock` or may be
blocked. -/
def executeCmd (doc : Doc) (sel : List Loc) : Option Doc :=
  if getValue doc sel then
    some (removeBlock doc (sel.filter fun block => (findBlockLoc doc block).isSome))
  else
    applyBlock doc
      (sel.filter fun block =>
        (findBlockLoc doc block).isSome || checkCanBeBlocked doc block)

end CodeBlockCmd

namespace CodeBlockCmd

/-! ## The runs decomposition of the grouping scan

`runsGo` mirrors `rangesGo` but returns the groups of blocks themselves
(`acc` is the currently open run); it is the specification-level "maximal
runs of tree-adjacent siblings" view of the single left-to-right scan. -/

def runsGo (doc : Doc) : List Loc → List Loc → List (List Loc)
  | _, [] => []
  | acc, block :: rest =>
    match rest with
    | [] => [acc ++ [block]]
    | nextBlock :: _ =>
      if nextSiblingLoc doc block = some nextBlock then
        runsGo doc (acc ++ [block]) rest
      else
        (acc ++ [block]) :: runsGo doc [] rest

/-- The maximal runs of tree-adjacent siblings in a selection. -/
def runsOf (doc : Doc) (sel : List Loc) : List (List Loc) :=
  runsGo doc [] sel

/-- The range covering one run: from before its first block to after its
last block. -/
def rangeOfRun (r : List Loc) : GroupRange :=
  ⟨posBefore (r.headD (Loc.root 0)), posAfter (r.getLastD (Loc.root 0))⟩

/-- The concrete document of the grouping example: content `abcdefgh`. -/
def exampleDoc : Doc :=
  [.blk 0, .blk 1, .blk 2, .blk 3, .blk 4, .blk 5, .blk 6, .blk 7]

/-- The selected blocks `[a, b, d, f, g, h]` of the grouping example. -/
def exampleSel : List Loc :=
  [.root 0, .root 1, .root 3, .root 5, .root 6, .root 7]

/-- A run of `n` selected blocks inside the container at root index `i`,
starting at child offset `s`. -/
def inCbRun (i s n : Nat) : List Loc :=
  (List.range n).map (fun k => Loc.inCb i (s + k))

/-- `Splice doc d`: `d` is obtained from `doc` by replacing each container
item, in place, by some (possibly empty) list of items, while every plain
block item of the root is kept unchanged, in its original position relative
to its surviving siblings.  This captures the frame condition of the unwrap
path: root-level blocks are never moved, reordered or removed. -/
inductive Splice : Doc → Doc → Prop where
  | nil : Splice [] []
  | blk {d d' : Doc} (b : Nat) : Splice d d' → Splice (.blk b :: d) (.blk b :: d')
  | cb {d d' : Doc} (cs : List Item) (ms : List Item) :
      Splice d d' → Splice (.cb cs :: d) (ms ++ d')

/-- Two sibling container elements of the same type are directly adjacent
somewhere among the root's children. -/
def hasAdjacentCbs : Doc → Bool
  | [] => false
  | [_] => false
  | x :: y :: rest => (isCbItem x && isCbItem y) || hasAdjacentCbs (y :: rest)

/-! ## Segment descriptions of selections of maximal runs

A selection of bare root-level blocks decomposes into segments `(gap, n)`:
`gap` unselected root items followed by a maximal run of `n` selected
blocks.  `SegsOk len first segs` is well-formedness relative to the number
`len` of remaining root items: runs are nonempty, every gap after the
first segment is nonempty (maximality of runs), and segments fit. -/

def SegsOk : Nat → Bool → List (Nat × Nat) → Prop
  | _, _, [] => True
  | len, first, (g, n) :: rest =>
      (first = true ∨ 0 < g) ∧ 0 < n ∧ g + n ≤ len ∧ SegsOk (len - (g + n)) false rest

/-- The run of `n` root-level block locations starting at root index `s`. -/
def rootRun (s n : Nat) : List Loc :=
  (List.range n).map (fun j => Loc.root (s + j))

/-- The selection described by segments, as root locations from offset `k`. -/
def segSel (k : Nat) : List (Nat × Nat) → List Loc
  | [] => []
  | (g, n) :: rest => rootRun (k + g) n ++ segSel (k + g + n) rest

/-- The group ranges of the segment selection (one full range per run). -/
def absRanges (k : Nat) : List (Nat × Nat) → List GroupRange
  | [] => []
  | (g, n) :: rest => ⟨⟨none, k + g⟩, ⟨none, k + g + n⟩⟩ :: absRanges (k + g + n) rest

/-- The root indices of the containers recorded for the segments after the
wrap pass (one new container per run). -/
def segRefs (k : Nat) : List (Nat × Nat) → List Nat
  | [] => []
  | (g, _) :: rest => (k + g) :: segRefs (k + g + 1) rest

/-- The document after wrapping each segment's run in a new container. -/
def segWrap (doc : Doc) : List (Nat × Nat) → Doc
  | [] => doc
  | (g, n) :: rest =>
      doc.take g ++ Item.cb ((doc.drop g).take n) :: segWrap (doc.drop (g + n)) rest

/-- The same selected blocks, addressed inside the containers created by
`segWrap` (for the unwrap direction of the round trip). -/
def segSelCb (k : Nat) : List (Nat × Nat) → List Loc
  | [] => []
  | (g, n) :: rest => inCbRun (k + g) 0 n ++ segSelCb (k + g + 1) rest

/-- The group ranges of the unwrap direction: one full-container range per
created container. -/
def cbRanges (k : Nat) : List (Nat × Nat) → List GroupRange
  | [] => []
  | (g, n) :: rest => ⟨⟨some (k + g), 0⟩, ⟨some (k + g), n⟩⟩ :: cbRanges (k + g + 1) rest

/-- Shift a location right by `k` root indices. -/
def shiftLoc (k : Nat) : Loc → Loc
  | .root i => .root (k + i)
  | .inCb i j => .inCb (k + i) j

/-- Shift a position right by `k` root indices. -/
def shiftPos (k : Nat) : Pos → Pos
  | ⟨none, o⟩ => ⟨none, k + o⟩
  | ⟨some i, o⟩ => ⟨some (k + i), o⟩

/-- Shift a range right by `k` root indices. -/
def shiftRange (k : Nat) (g : GroupRange) : GroupRange :=
  ⟨shiftPos k g.start, shiftPos k g.stop⟩

/-! ## Basic facts about the guard and the command state -/

lemma findBlockLoc_isSome_iff (doc : Doc) (b : Loc) :
    (findBlockLoc doc b).isSome = true ↔
      ∃ i j, b = Loc.inCb i j ∧ ∃ cs, doc[i]? = some (.cb cs) := by
  cases b with
  | root i => simp [findBlockLoc]
  | inCb i j =>
    cases h : doc[i]? with
    | none => simp [findBlockLoc, h]
    | some it =>
      cases it with
      | blk n => simp [findBlockLoc, h]
      | cb cs =>
        simp only [findBlockLoc, h, Option.isSome_some, true_iff]
        exact ⟨i, j, rfl, cs, h⟩

lemma checkCanBeBlocked_root (doc : Doc) (i : Nat) :
    checkCanBeBlocked doc (Loc.root i) = true := by
  simp only [checkCanBeBlocked, parentNameOf]
  decide

/-- **C7.** `refresh()` sets `value` to true iff the first selected block's
immediate parent is a `codeBlock` container, and sets `isEnabled` to true
if `value` is true, and otherwise to true iff the schema guard accepts the
first selected block (in particular `isEnabled` is false when there is no
selected block). -/
theorem claim_C7 (doc : Doc) (sel : List Loc) :
    ((refresh doc sel).value = true ↔
      ∃ b, sel.head? = some b ∧ ∃ i j, b = Loc.inCb i j ∧ ∃ cs, doc[i]? = some (.cb cs)) ∧
    ((refresh doc sel).isEnabled = true ↔
      ((refresh doc sel).value = true ∨
        ∃ b, sel.head? = some b ∧ checkCanBeBlocked doc b = true)) := by
  constructor
  · show getValue doc sel = true ↔ _
    cases hh : sel.head? with
    | none => simp [getValue, hh]
    | some b => simp [getValue, hh, findBlockLoc_isSome_iff]
  · show checkEnabled doc sel = true ↔ (getValue doc sel = true ∨ _)
    unfold checkEnabled
    cases hv : getValue doc sel with
    | true => simp
    | false =>
      cases hh : sel.head? with
      | none => simp [hh]
      | some b => simp [hh]

/-- **C8.** Whenever wrapping a block would place a `codeBlock` container
inside an existing `codeBlock` container — i.e. the block's immediate parent
is already a container — the schema guard `checkCanBeBlocked` returns
false (the registered `addChildCheck` rejects `codeBlock` in `codeBlock`).
The predicate is pure by construction: it is a total function of the
document and the block and performs no mutation. -/
theorem claim_C8 (doc : Doc) (b : Loc) (i j : Nat) (cs : List Item)
    (hb : b = Loc.inCb i j) (hc : doc[i]? = some (.cb cs)) :
    checkCanBeBlocked doc b = false := by
  subst hb
  simp only [checkCanBeBlocked, parentNameOf, hc]
  decide

/-- Witness for C8: a block inside a container is rejected by the guard. -/
theorem claim_C8_witness :
    checkCanBeBlocked [Item.cb [Item.blk 0]] (Loc.inCb 0 0) = false :=
  claim_C8 [Item.cb [Item.blk 0]] (Loc.inCb 0 0) 0 0 [Item.blk 0] rfl rfl

/-- **C9 (counterexample).** The claim "the Wrap path operates only on
groups whose blocks passed SchemaGuard" is false: in `[p0, codeBlock[p1]]`
with both blocks selected, the command takes the Wrap path (`value` is
false), the guard rejects the already-wrapped block `p1`, yet `p1` is kept
in the wrap set (the source deliberately keeps blocks with a `codeBlock`
parent so their container can be reused). -/
theorem claim_C9_counterexample :
    getValue [Item.blk 0, Item.cb [Item.blk 1]] [Loc.root 0, Loc.inCb 1 0] = false ∧
    checkCanBeBlocked [Item.blk 0, Item.cb [Item.blk 1]] (Loc.inCb 1 0) = false ∧
    (Loc.inCb 1 0) ∈ ([Loc.root 0, Loc.inCb 1 0].filter fun b =>
      (findBlockLoc [Item.blk 0, Item.cb [Item.blk 1]] b).isSome ||
        checkCanBeBlocked [Item.blk 0, Item.cb [Item.blk 1]] b) := by
  refine ⟨by decide, by decide, by decide⟩

/-- **C9 (amended).** During the Wrap path, every selected block for which
the schema guard returns false *and which is not already inside a
container* is silently excluded from the set of blocks to wrap (the filter
is a total function, so no error is raised); conversely every block kept in
the wrap set either passed the guard or is already inside a container
(kept so that its container can be reused). -/
theorem claim_C9 (doc : Doc) (sel : List Loc) :
    (∀ b ∈ sel, checkCanBeBlocked doc b = false → findBlockLoc doc b = none →
      b ∉ sel.filter (fun x => (findBlockLoc doc x).isSome || checkCanBeBlocked doc x)) ∧
    (∀ b ∈ sel.filter (fun x => (findBlockLoc doc x).isSome || checkCanBeBlocked doc x),
      (findBlockLoc doc b).isSome = true ∨ checkCanBeBlocked doc b = true) := by
  constructor
  · intro b _ hguard hfind hmem
    rw [List.mem_filter] at hmem
    rcases hmem with ⟨-, hkeep⟩
    rw [hguard, hfind] at hkeep
    simp at hkeep
  · intro b hmem
    rw [List.mem_filter] at hmem
    rcases hmem with ⟨-, hkeep⟩
    rcases Bool.or_eq_true_iff.mp hkeep with h | h
    · exact Or.inl h
    · exact Or.inr h

/-- Witness for C9 (amended): in `[p0, p1]` with a third, guard-rejected
phantom location excluded — here concretely: a bare block passes and stays,
and the kept set satisfies the disjunction. -/
theorem claim_C9_witness :
    (Loc.root 0) ∉ ([Loc.root 0].filter fun x =>
        (findBlockLoc ([] : Doc) x).isSome || checkCanBeBlocked ([] : Doc) x) ∨
    ((findBlockLoc ([] : Doc) (Loc.root 0)).isSome = true ∨
      checkCanBeBlocked ([] : Doc) (Loc.root 0) = true) :=
  Or.inr ((claim_C9 ([] : Doc) [Loc.root 0]).2 (Loc.root 0) (by decide))

/-! ## C1: the grouping scan computes the maximal-run decomposition -/

lemma rangesGo_single (doc : Doc) (sp : Option Pos) (b : Loc) :
    rangesGo doc sp [b] = [⟨sp.getD (posBefore b), posAfter b⟩] := rfl

lemma rangesGo_cons2 (doc : Doc) (sp : Option Pos) (b nb : Loc) (rest : List Loc) :
    rangesGo doc sp (b :: nb :: rest) =
      if nextSiblingLoc doc b = some nb then
        rangesGo doc (some (sp.getD (posBefore b))) (nb :: rest)
      else
        ⟨sp.getD (posBefore b), posAfter b⟩ :: rangesGo doc none (nb :: rest) := rfl

lemma runsGo_single (doc : Doc) (acc : List Loc) (b : Loc) :
    runsGo doc acc [b] = [acc ++ [b]] := rfl

lemma runsGo_cons2 (doc : Doc) (acc : List Loc) (b nb : Loc) (rest : List Loc) :
    runsGo doc acc (b :: nb :: rest) =
      if nextSiblingLoc doc b = some nb then
        runsGo doc (acc ++ [b]) (nb :: rest)
      else
        (acc ++ [b]) :: runsGo doc [] (nb :: rest) := rfl

lemma headD_append_cons (acc : List Loc) (b d : Loc) :
    ((acc ++ [b]).headD d) = acc.headD b := by
  cases acc <;> simp

lemma head?_append_cons (acc : List Loc) (b : Loc) :
    (acc ++ [b]).head? = some (acc.headD b) := by
  cases acc <;> simp

lemma posBefore_accD (acc : List Loc) (b : Loc) :
    (acc.head?.map posBefore).getD (posBefore b) = posBefore (acc.headD b) := by
  cases acc <;> simp

lemma rangeOfRun_append (acc : List Loc) (b : Loc) :
    rangeOfRun (acc ++ [b]) = ⟨posBefore (acc.headD b), posAfter b⟩ := by
  cases acc with
  | nil => simp [rangeOfRun]
  | cons a as =>
    have h1 : ((a :: as) ++ [b]).headD (Loc.root 0) = a := by simp
    have h2 : ((a :: as) ++ [b]).getLastD (Loc.root 0) = b := by
      rw [List.getLastD_eq_getLast?, List.getLast?_concat]
      rfl
    simp only [rangeOfRun, h1, h2, List.headD_cons]

lemma rangesGo_eq_runsGo (doc : Doc) : ∀ (sel acc : List Loc),
    rangesGo doc (acc.head?.map posBefore) sel = (runsGo doc acc sel).map rangeOfRun
  | [], acc => by simp [rangesGo, runsGo]
  | [b], acc => by
    rw [rangesGo_single, runsGo_single, List.map_singleton, rangeOfRun_append,
      posBefore_accD]
  | b :: nb :: rest, acc => by
    rw [rangesGo_cons2, runsGo_cons2]
    by_cases h : nextSiblingLoc doc b = some nb
    · rw [if_pos h, if_pos h, posBefore_accD]
      have ih := rangesGo_eq_runsGo doc (nb :: rest) (acc ++ [b])
      rw [head?_append_cons] at ih
      exact ih
    · rw [if_neg h, if_neg h, List.map_cons, rangeOfRun_append, posBefore_accD]
      have ih := rangesGo_eq_runsGo doc (nb :: rest) []
      exact congrArg (fun l => (⟨posBefore (acc.headD b), posAfter b⟩ : GroupRange) :: l) ih



lemma runsGo_join (doc : Doc) : ∀ (sel acc : List Loc), sel ≠ [] →
    (runsGo doc acc sel).flatten = acc ++ sel
  | [], _, h => absurd rfl h
  | [b], acc, _ => by simp [runsGo_single]
  | b :: nb :: rest, acc, _ => by
    rw [runsGo_cons2]
    by_cases h : nextSiblingLoc doc b = some nb
    · rw [if_pos h, runsGo_join doc (nb :: rest) (acc ++ [b]) (by simp)]
      simp
    · rw [if_neg h, List.flatten_cons, runsGo_join doc (nb :: rest) [] (by simp)]
      simp

lemma runsGo_nonempty_chain (doc : Doc) : ∀ (sel acc : List Loc),
    List.Chain' (fun a b => nextSiblingLoc doc a = some b) acc →
    (∀ a b, acc.getLast? = some a → sel.head? = some b → nextSiblingLoc doc a = some b) →
    ∀ r ∈ runsGo doc acc sel,
      r ≠ [] ∧ List.Chain' (fun a b => nextSiblingLoc doc a = some b) r
  | [], _, _, _ => by simp [runsGo]
  | [b], acc, hacc, hlink => by
    rw [runsGo_single]
    intro r hr
    rw [List.mem_singleton] at hr
    subst hr
    refine ⟨by simp, ?_⟩
    rw [List.chain'_append]
    refine ⟨hacc, List.chain'_singleton _, ?_⟩
    intro x hx y hy
    rw [List.head?_cons, Option.mem_some_iff] at hy
    subst hy
    exact hlink x b (Option.mem_def.mp hx) rfl
  | b :: nb :: rest, acc, hacc, hlink => by
    rw [runsGo_cons2]
    have hcur : List.Chain' (fun a b => nextSiblingLoc doc a = some b) (acc ++ [b]) := by
      rw [List.chain'_append]
      refine ⟨hacc, List.chain'_singleton _, ?_⟩
      intro x hx y hy
      rw [List.head?_cons, Option.mem_some_iff] at hy
      subst hy
      exact hlink x b (Option.mem_def.mp hx) rfl
    by_cases h : nextSiblingLoc doc b = some nb
    · rw [if_pos h]
      refine runsGo_nonempty_chain doc (nb :: rest) (acc ++ [b]) hcur ?_
      intro a c ha hc
      rw [List.getLast?_concat, Option.some_inj] at ha
      rw [List.head?_cons, Option.some_inj] at hc
      subst ha; subst hc
      exact h
    · rw [if_neg h]
      intro r hr
      rcases List.mem_cons.mp hr with hr | hr
      · subst hr
        exact ⟨by simp, hcur⟩
      · exact runsGo_nonempty_chain doc (nb :: rest) [] List.chain'_nil
          (by intro a c ha _; simp at ha) r hr

lemma runsGo_first_head (doc : Doc) : ∀ (sel acc : List Loc), sel ≠ [] →
    ∃ r rs, runsGo doc acc sel = r :: rs ∧ r.head? = (acc ++ sel).head?
  | [], _, h => absurd rfl h
  | [b], acc, _ => by
    rw [runsGo_single]
    exact ⟨acc ++ [b], [], rfl, by cases acc <;> simp⟩
  | b :: nb :: rest, acc, _ => by
    rw [runsGo_cons2]
    by_cases h : nextSiblingLoc doc b = some nb
    · rw [if_pos h]
      obtain ⟨r, rs, heq, hh⟩ := runsGo_first_head doc (nb :: rest) (acc ++ [b]) (by simp)
      refine ⟨r, rs, heq, ?_⟩
      rw [hh]
      cases acc <;> simp
    · rw [if_neg h]
      exact ⟨acc ++ [b], _, rfl, by cases acc <;> simp⟩

lemma runsGo_sep (doc : Doc) : ∀ (sel acc : List Loc),
    List.Chain' (fun r s => ∀ a b, r.getLast? = some a → s.head? = some b →
      nextSiblingLoc doc a ≠ some b) (runsGo doc acc sel)
  | [], _ => by simp [runsGo]
  | [b], acc => by rw [runsGo_single]; exact List.chain'_singleton _
  | b :: nb :: rest, acc => by
    rw [runsGo_cons2]
    by_cases h : nextSiblingLoc doc b = some nb
    · rw [if_pos h]
      exact runsGo_sep doc (nb :: rest) (acc ++ [b])
    · rw [if_neg h]
      rw [List.chain'_cons']
      refine ⟨?_, runsGo_sep doc (nb :: rest) []⟩
      intro y hy a c ha hc
      obtain ⟨r, rs, heq, hh⟩ := runsGo_first_head doc (nb :: rest) [] (by simp)
      rw [heq, List.head?_cons, Option.mem_some_iff] at hy
      subst hy
      rw [List.getLast?_concat, Option.some_inj] at ha
      subst ha
      rw [hh] at hc
      simp only [List.nil_append, List.head?_cons, Option.some_inj] at hc
      subst hc
      exact h

/-- **C1.** The range grouper is a single left-to-right scan producing the
minimal ordered list of ranges covering maximal runs of tree-adjacent
siblings: its output is exactly one range per maximal run (`runsOf`), the
runs concatenate back to the input selection, each run is a nonempty chain
of tree-adjacent siblings, consecutive runs cannot be merged (the last
block of one is never the tree-sibling of the first block of the next,
hence the cover is minimal and the runs maximal); and on blocks
`[a,b,d,f,g,h]` of content `abcdefgh` with `a.next = b`, `f.next = g`,
`g.next = h` and `d` isolated it produces exactly the three ranges
`[a,b]`, `[d]`, `[f,g,h]`. -/
theorem claim_C1 :
    (∀ (doc : Doc) (sel : List Loc),
      getRangesOfBlockGroups doc sel = (runsOf doc sel).map rangeOfRun) ∧
    (∀ (doc : Doc) (sel : List Loc), (runsOf doc sel).flatten = sel) ∧
    (∀ (doc : Doc) (sel : List Loc), ∀ r ∈ runsOf doc sel,
      r ≠ [] ∧ List.Chain' (fun a b => nextSiblingLoc doc a = some b) r) ∧
    (∀ (doc : Doc) (sel : List Loc),
      List.Chain' (fun r s => ∀ a b, r.getLast? = some a → s.head? = some b →
        nextSiblingLoc doc a ≠ some b) (runsOf doc sel)) ∧
    getRangesOfBlockGroups exampleDoc exampleSel =
      [⟨⟨none, 0⟩, ⟨none, 2⟩⟩, ⟨⟨none, 3⟩, ⟨none, 4⟩⟩, ⟨⟨none, 5⟩, ⟨none, 8⟩⟩] := by
  refine ⟨?_, ?_, ?_, ?_, by decide⟩
  · intro doc sel
    have h := rangesGo_eq_runsGo doc sel []
    simpa [getRangesOfBlockGroups, runsOf] using h
  · intro doc sel
    cases sel with
    | nil => simp [runsOf, runsGo]
    | cons b rest =>
      have h := runsGo_join doc (b :: rest) [] (by simp)
      simpa [runsOf] using h
  · intro doc sel r hr
    exact runsGo_nonempty_chain doc sel [] List.chain'_nil
      (by intro a c ha _; simp at ha) r hr
  · intro doc sel
    exact runsGo_sep doc sel []

/-! ## C2, C3: the unwrap cases -/

lemma inCbRun_one (i s : Nat) : inCbRun i s 1 = [Loc.inCb i s] := by
  simp only [inCbRun]
  rw [show List.range 1 = [0] from rfl]
  simp

lemma inCbRun_succ (i s n : Nat) :
    inCbRun i s (n + 1) = Loc.inCb i s :: inCbRun i (s + 1) n := by
  have harith : (fun k => Loc.inCb i (s + (k + 1))) = (fun k => Loc.inCb i (s + 1 + k)) := by
    funext k
    congr 1
    omega
  simp only [inCbRun, List.range_succ_eq_map, List.map_cons, List.map_map, Nat.add_zero]
  congr 1
  rw [show ((fun k => Loc.inCb i (s + k)) ∘ Nat.succ) = fun k => Loc.inCb i (s + (k + 1)) from rfl,
    harith]

lemma rangesGo_inCbRun (doc : Doc) (i : Nat) (cs : List Item)
    (hc : doc[i]? = some (.cb cs)) :
    ∀ (n s : Nat) (sp : Option Pos), 0 < n → s + n ≤ cs.length →
      rangesGo doc sp (inCbRun i s n) = [⟨sp.getD ⟨some i, s⟩, ⟨some i, s + n⟩⟩]
  | 0, _, _, h, _ => absurd h (by omega)
  | 1, s, sp, _, hle => by
    rw [inCbRun_one, rangesGo_single]
    rfl
  | (m + 2), s, sp, _, hle => by
    rw [inCbRun_succ, inCbRun_succ, show Loc.inCb i s :: Loc.inCb i (s + 1) :: inCbRun i (s + 1 + 1) m
        = Loc.inCb i s :: (Loc.inCb i (s + 1) :: inCbRun i (s + 1 + 1) m) from rfl]
    rw [rangesGo_cons2]
    have hadj : nextSiblingLoc doc (Loc.inCb i s) = some (Loc.inCb i (s + 1)) := by
      simp only [nextSiblingLoc, hc]
      rw [if_pos (by omega)]
    rw [if_pos hadj]
    simp only [posBefore]
    have hpos : 0 < m + 1 := by omega
    have hle2 : (s + 1) + (m + 1) ≤ cs.length := by omega
    have ih := rangesGo_inCbRun doc i cs hc (m + 1) (s + 1)
      (some (sp.getD ⟨some i, s⟩)) hpos hle2
    rw [inCbRun_succ] at ih
    rw [ih]
    simp only [Option.getD_some]
    have harith2 : s + 1 + (m + 1) = s + (m + 2) := by omega
    rw [harith2]

/-- **C2.** For every unwrap group whose range spans a container's entire
content (start at offset 0, end at the container's child count), the unwrap
operation removes the container in place, splicing its children at its
former position in the root in their original order; the container itself
is gone from the result. -/
theorem claim_C2 (doc : Doc) (i : Nat) (cs : List Item)
    (hc : doc[i]? = some (.cb cs)) (hne : cs ≠ []) :
    removeBlock doc (inCbRun i 0 cs.length) = doc.take i ++ cs ++ doc.drop (i + 1) := by
  have hlen : 0 < cs.length := List.length_pos.mpr hne
  have hranges : getRangesOfBlockGroups doc (inCbRun i 0 cs.length) =
      [⟨⟨some i, 0⟩, ⟨some i, cs.length⟩⟩] := by
    have h := rangesGo_inCbRun doc i cs hc cs.length 0 none hlen (by omega)
    simpa [getRangesOfBlockGroups] using h
  rw [removeBlock, hranges]
  simp only [List.reverse_singleton, List.foldl_cons, List.foldl_nil]
  simp [removeGroup, posIsAtStart, posIsAtEnd, childListAt, hc]

/-- Witness for C2: unwrapping the full container `codeBlock[p0, p1]` in
`[codeBlock[p0, p1], p9]` splices its children in place. -/
theorem claim_C2_witness :
    removeBlock [Item.cb [Item.blk 0, Item.blk 1], Item.blk 9] (inCbRun 0 0 2) =
      [Item.blk 0, Item.blk 1, Item.blk 9] :=
  claim_C2 [Item.cb [Item.blk 0, Item.blk 1], Item.blk 9] 0 [Item.blk 0, Item.blk 1]
    rfl (by decide)

/-- **C3.** For every unwrap group lying strictly in the interior of a
container (start offset `s > 0`, end offset `e` before the container's
child count), the unwrap operation splits the container after the range's
end and relocates the range's content immediately after the truncated
container: the result keeps a container with the prefix, then the
relocated blocks, then a new container with the remainder. -/
theorem claim_C3 (doc : Doc) (i s e : Nat) (cs : List Item)
    (hc : doc[i]? = some (.cb cs)) (h0 : 0 < s) (hse : s < e) (hel : e < cs.length) :
    removeBlock doc (inCbRun i s (e - s)) =
      doc.take i ++ Item.cb (cs.take s) ::
        ((cs.drop s).take (e - s) ++ (Item.cb (cs.drop e) :: doc.drop (i + 1))) := by
  have hranges : getRangesOfBlockGroups doc (inCbRun i s (e - s)) =
      [⟨⟨some i, s⟩, ⟨some i, e⟩⟩] := by
    have h := rangesGo_inCbRun doc i cs hc (e - s) s none (by omega) (by omega)
    rw [show s + (e - s) = e by omega] at h
    simpa [getRangesOfBlockGroups] using h
  rw [removeBlock, hranges]
  simp only [List.reverse_singleton, List.foldl_cons, List.foldl_nil]
  have hs0 : posIsAtStart (⟨some i, s⟩ : Pos) = false := by
    simp only [posIsAtStart]
    exact decide_eq_false (by omega)
  simp [removeGroup, hs0, childListAt, hc, hel]

/-- Witness for C3: in `codeBlock[p,q,r,s]`, unwrapping the interior range
`[q,r]` yields the truncated container `[p]`, the relocated `q, r`, and a
new container `[s]`, as three consecutive top-level siblings. -/
theorem claim_C3_witness :
    removeBlock [Item.cb [Item.blk 0, Item.blk 1, Item.blk 2, Item.blk 3]] (inCbRun 0 1 2) =
      [Item.cb [Item.blk 0], Item.blk 1, Item.blk 2, Item.cb [Item.blk 3]] :=
  claim_C3 [Item.cb [Item.blk 0, Item.blk 1, Item.blk 2, Item.blk 3]] 0 1 3
    [Item.blk 0, Item.blk 1, Item.blk 2, Item.blk 3] rfl (by decide) (by decide) (by decide)

/-! ## C10: the unwrap path never disturbs root-level blocks -/

lemma splice_refl : ∀ d : Doc, Splice d d
  | [] => Splice.nil
  | .blk b :: rest => Splice.blk b (splice_refl rest)
  | .cb cs :: rest => Splice.cb cs [.cb cs] (splice_refl rest)

lemma splice_append_inv : ∀ (xs : Doc) {ys z : Doc}, Splice (xs ++ ys) z →
    ∃ z1 z2, z = z1 ++ z2 ∧ Splice xs z1 ∧ Splice ys z2
  | [], ys, z, h => ⟨[], z, rfl, Splice.nil, h⟩
  | .blk b :: xs, ys, z, h => by
    cases h with
    | blk _ h' =>
      obtain ⟨z1, z2, rfl, hx, hy⟩ := splice_append_inv xs h'
      exact ⟨.blk b :: z1, z2, rfl, Splice.blk b hx, hy⟩
  | .cb cs :: xs, ys, z, h => by
    cases h with
    | cb _ ms h' =>
      obtain ⟨z1, z2, rfl, hx, hy⟩ := splice_append_inv xs h'
      exact ⟨ms ++ z1, z2, by rw [List.append_assoc], Splice.cb cs ms hx, hy⟩

lemma splice_trans {d e : Doc} (h1 : Splice d e) : ∀ {f : Doc}, Splice e f → Splice d f := by
  induction h1 with
  | nil => intro f h2; exact h2
  | blk b h ih =>
    intro f h2
    cases h2 with
    | blk _ h' => exact Splice.blk b (ih h')
  | cb cs ms h ih =>
    intro f h2
    obtain ⟨z1, z2, rfl, hx, hy⟩ := splice_append_inv ms h2
    exact Splice.cb cs z1 (ih hy)

lemma splice_replace : ∀ (doc : Doc) (i : Nat) (cs : List Item) (ms : List Item),
    doc[i]? = some (.cb cs) → Splice doc (doc.take i ++ ms ++ doc.drop (i + 1))
  | [], i, cs, ms, h => by simp at h
  | x :: rest, 0, cs, ms, h => by
    simp only [List.getElem?_cons_zero, Option.some_inj] at h
    subst h
    simpa using Splice.cb cs ms (splice_refl rest)
  | x :: rest, (i + 1), cs, ms, h => by
    simp only [List.getElem?_cons_succ] at h
    have ih := splice_replace rest i cs ms h
    cases x with
    | blk b => exact Splice.blk b ih
    | cb cs' =>
      simpa using Splice.cb cs' [.cb cs'] ih

lemma removeGroup_splice (doc : Doc) (g : GroupRange) : Splice doc (removeGroup doc g) := by
  unfold removeGroup
  repeat' split
  all_goals try exact splice_refl doc
  · -- full range: unwrap the container in place
    rename_i i hpar x cs heq
    exact splice_replace doc i cs cs heq
  · -- range at the container's start: move its content before the container
    rename_i i hpar x cs heq
    simpa [List.append_assoc] using splice_replace doc i cs
      (cs.take g.stop.off ++ [Item.cb (cs.drop g.stop.off)]) heq
  · -- interior range: split, then move after the truncated container
    rename_i i hpar x cs heq hcond
    simpa [List.append_assoc] using splice_replace doc i cs
      (Item.cb (cs.take g.start.off) ::
        ((cs.drop g.start.off).take (g.stop.off - g.start.off) ++
          [Item.cb (cs.drop g.stop.off)])) heq
  · -- suffix range: no split needed, move after the truncated container
    rename_i i hpar x cs heq hcond
    simpa [List.append_assoc] using splice_replace doc i cs
      (Item.cb (cs.take g.start.off) ::
        (cs.drop g.start.off).take (g.stop.off - g.start.off)) heq

lemma foldl_removeGroup_splice : ∀ (gs : List GroupRange) (doc : Doc),
    Splice doc (gs.foldl removeGroup doc)
  | [], doc => splice_refl doc
  | g :: gs, doc => by
    rw [List.foldl_cons]
    exact splice_trans (removeGroup_splice doc g) (foldl_removeGroup_splice gs (removeGroup doc g))

/-- **C10.** On the unwrap path (`value` true), `execute()` only feeds the
selected blocks whose immediate parent is a container into the unwrap
groups: the filtered set consists exactly of in-container locations (every
root-level selected block is excluded), and the unwrap result is a
`Splice` of the original document — each container item is rewritten in
place while every root-level block item keeps its identity and its
position relative to its siblings, so blocks outside containers are left
untouched. -/
theorem claim_C10 (doc : Doc) (sel : List Loc) :
    (getValue doc sel = true → executeCmd doc sel =
      some (removeBlock doc (sel.filter fun b => (findBlockLoc doc b).isSome))) ∧
    Splice doc (removeBlock doc (sel.filter fun b => (findBlockLoc doc b).isSome)) ∧
    (∀ l ∈ sel.filter (fun b => (findBlockLoc doc b).isSome),
      ∃ i j, l = Loc.inCb i j ∧ ∃ cs, doc[i]? = some (.cb cs)) ∧
    (∀ i, Loc.root i ∉ sel.filter (fun b => (findBlockLoc doc b).isSome)) := by
  refine ⟨?_, ?_, ?_, ?_⟩
  · intro hv
    rw [executeCmd, if_pos hv]
  · exact foldl_removeGroup_splice _ doc
  · intro l hl
    rw [List.mem_filter] at hl
    exact (findBlockLoc_isSome_iff doc l).mp hl.2
  · intro i hmem
    rw [List.mem_filter] at hmem
    simp [findBlockLoc] at hmem

/-! ## C5: re-wrapping an already fully wrapped selection is a no-op -/

lemma hasAdjacentCbs_spec : ∀ (doc : Doc), hasAdjacentCbs doc = false →
    ∀ (k : Nat) (cs1 cs2 : List Item),
      doc[k]? = some (.cb cs1) → doc[k + 1]? = some (.cb cs2) → False
  | [], _, k, _, _, h1, _ => by simp at h1
  | [x], _, k, _, _, h1, h2 => by
    rcases k with _ | k <;> simp_all
  | x :: y :: rest, hadj, k, cs1, cs2, h1, h2 => by
    rw [hasAdjacentCbs] at hadj
    rcases Bool.or_eq_false_iff.mp hadj with ⟨hxy, hrest⟩
    rcases k with _ | k
    · simp only [List.getElem?_cons_zero, Option.some_inj] at h1
      simp only [Nat.zero_add, List.getElem?_cons_succ, List.getElem?_cons_zero,
        Option.some_inj] at h2
      subst h1; subst h2
      simp [isCbItem] at hxy
    · rw [List.getElem?_cons_succ] at h1
      rw [List.getElem?_cons_succ] at h2
      exact hasAdjacentCbs_spec (y :: rest) hrest k cs1 cs2 h1 h2

lemma findBlockPos_some (doc : Doc) (p : Pos) (i : Nat)
    (h : findBlockPos doc p = some i) :
    p.parent = some i ∧ ∃ cs, doc[i]? = some (.cb cs) := by
  cases hp : p.parent with
  | none => simp [findBlockPos, hp] at h
  | some j =>
    cases hd : doc[j]? with
    | none => simp [findBlockPos, hp, hd] at h
    | some it =>
      cases it with
      | blk b => simp [findBlockPos, hp, hd] at h
      | cb cs =>
        simp only [findBlockPos, hp, hd, Option.some_inj] at h
        subst h
        exact ⟨rfl, cs, hd⟩

lemma rangesGo_start_mem (doc : Doc) : ∀ (sel : List Loc) (sp : Option Pos)
    (g : GroupRange), g ∈ rangesGo doc sp sel →
    g.start ∈ sp.toList ++ sel.map posBefore
  | [], _, g, hg => by simp [rangesGo] at hg
  | [b], sp, g, hg => by
    rw [rangesGo_single, List.mem_singleton] at hg
    subst hg
    cases sp with
    | none => simp
    | some p => simp
  | b :: nb :: rest, sp, g, hg => by
    rw [rangesGo_cons2] at hg
    by_cases h : nextSiblingLoc doc b = some nb
    · rw [if_pos h] at hg
      have ih := rangesGo_start_mem doc (nb :: rest) (some (sp.getD (posBefore b))) g hg
      simp only [Option.toList_some, List.cons_append, List.mem_cons] at ih
      rcases ih with hh | hh
      · cases sp with
        | none => simp [hh]
        | some p => simp [hh]
      · simp only [List.map_cons, List.mem_append, List.mem_cons]
        right; right
        simpa using hh
    · rw [if_neg h, List.mem_cons] at hg
      rcases hg with hg | hg
      · subst hg
        cases sp with
        | none => simp
        | some p => simp
      · have ih := rangesGo_start_mem doc (nb :: rest) none g hg
        simp only [Option.toList_none, List.nil_append] at ih
        simp only [List.map_cons, List.mem_append, List.mem_cons]
        right; right
        simpa using ih

lemma apply_fold_reuse : ∀ (gs : List GroupRange) (doc : Doc) (refs0 : List Nat),
    (∀ g ∈ gs, (findBlockPos doc g.start).isSome) →
    (gs.foldl applyGroup (doc, refs0)).1 = doc ∧
    (∀ r ∈ (gs.foldl applyGroup (doc, refs0)).2,
      (∃ cs, doc[r]? = some (.cb cs)) ∨ r ∈ refs0) ∧
    (gs.foldl applyGroup (doc, refs0)).2.length = gs.length + refs0.length
  | [], doc, refs0, _ => ⟨rfl, fun r hr => Or.inr hr, by simp⟩
  | g :: gs, doc, refs0, hall => by
    have hg := hall g (List.mem_cons_self g gs)
    rcases Option.isSome_iff_exists.mp hg with ⟨i, hi⟩
    have hstep : applyGroup (doc, refs0) g = (doc, i :: refs0) := by
      simp [applyGroup, hi]
    rw [List.foldl_cons, hstep]
    have ih := apply_fold_reuse gs doc (i :: refs0)
      (fun g' hg' => hall g' (List.mem_cons_of_mem g hg'))
    refine ⟨ih.1, fun r hr => ?_, by rw [ih.2.2]; simp; omega⟩
    rcases ih.2.1 r hr with h | h
    · exact Or.inl h
    · rcases List.mem_cons.mp h with h | h
      · subst h
        exact Or.inl (findBlockPos_some doc g.start r hi).2
      · exact Or.inr h

lemma mergeStep_no_adjacent : ∀ (refs : List Nat) (doc : Doc) (c : Nat),
    hasAdjacentCbs doc = false →
    (∃ cs, doc[c]? = some (.cb cs)) →
    (∀ r ∈ refs, ∃ cs, doc[r]? = some (.cb cs)) →
    mergeStep doc (.idx c) (refs.map .idx) id = doc
  | [], doc, c, _, _, _ => rfl
  | m :: rest, doc, c, hadj, hc, hrefs => by
    have hm := hrefs m (List.mem_cons_self m rest)
    have hne : ¬(m = c + 1) := by
      intro he
      subst he
      rcases hc with ⟨cs1, hc⟩
      rcases hm with ⟨cs2, hm⟩
      exact hasAdjacentCbs_spec doc hadj c cs1 cs2 hc hm
    show mergeStep doc (.idx c) (.idx m :: rest.map .idx) id = doc
    simp only [mergeStep, id_eq]
    rw [if_neg hne]
    exact mergeStep_no_adjacent rest doc m hadj hm
      (fun r hr => hrefs r (List.mem_cons_of_mem m hr))

lemma getRanges_ne_nil (doc : Doc) (sel : List Loc) (hne : sel ≠ []) :
    getRangesOfBlockGroups doc sel ≠ [] := by
  have h : rangesGo doc none sel = List.map rangeOfRun (runsGo doc [] sel) :=
    rangesGo_eq_runsGo doc sel []
  obtain ⟨r, rs, hr, -⟩ := runsGo_first_head doc sel [] hne
  rw [getRangesOfBlockGroups, h, hr]
  simp

/-- **C5.** When every selected block is already inside a container (so
`value` is true) and the document satisfies the no-adjacent-containers
invariant, invoking the Wrap path leaves the tree unchanged: the wrap
filter keeps the whole selection, no group wraps (each reuses its existing
container), the merge pass merges nothing, so no new container is created,
no node is moved or removed, and `value` stays true. -/
theorem claim_C5 (doc : Doc) (sel : List Loc)
    (hall : ∀ l ∈ sel, ∃ i j, l = Loc.inCb i j ∧ ∃ cs, doc[i]? = some (.cb cs))
    (hne : sel ≠ [])
    (hadj : hasAdjacentCbs doc = false) :
    getValue doc sel = true ∧
    sel.filter (fun b => (findBlockLoc doc b).isSome || checkCanBeBlocked doc b) = sel ∧
    applyBlock doc sel = some doc := by
  have hsome : ∀ l ∈ sel, (findBlockLoc doc l).isSome = true := by
    intro l hl
    exact (findBlockLoc_isSome_iff doc l).mpr (hall l hl)
  refine ⟨?_, ?_, ?_⟩
  · cases sel with
    | nil => exact absurd rfl hne
    | cons b rest =>
      simp only [getValue, List.head?_cons]
      exact hsome b (List.mem_cons_self b rest)
  · rw [List.filter_eq_self]
    intro b hb
    rw [hsome b hb]
    simp
  · have hstart : ∀ g ∈ (getRangesOfBlockGroups doc sel).reverse,
        (findBlockPos doc g.start).isSome = true := by
      intro g hg
      rw [List.mem_reverse] at hg
      have hmem := rangesGo_start_mem doc sel none g hg
      simp only [Option.toList_none, List.nil_append, List.mem_map] at hmem
      obtain ⟨l, hl, hpb⟩ := hmem
      obtain ⟨i, j, rfl, cs, hcs⟩ := hall l hl
      rw [← hpb]
      simp [findBlockPos, posBefore, hcs]
    obtain ⟨hdoc, hrefs, hlen⟩ :=
      apply_fold_reuse ((getRangesOfBlockGroups doc sel).reverse) doc [] hstart
    cases hr : (((getRangesOfBlockGroups doc sel).reverse).foldl applyGroup (doc, [])).2 with
    | nil =>
      exfalso
      rw [hr] at hlen
      simp only [List.length_nil, List.length_reverse, List.length_nil, Nat.add_zero] at hlen
      exact getRanges_ne_nil doc sel hne (List.length_eq_zero.mp hlen.symm)
    | cons r rest =>
      have hrcb : ∀ x ∈ r :: rest, ∃ cs, doc[x]? = some (.cb cs) := by
        intro x hx
        rw [← hr] at hx
        rcases hrefs x hx with h | h
        · exact h
        · simp at h
      have hmerge := mergeStep_no_adjacent rest doc r hadj
        (hrcb r (List.mem_cons_self r rest))
        (fun x hx => hrcb x (List.mem_cons_of_mem r hx))
      simp only [applyBlock, hr, hdoc]
      rw [hmerge]

/-- Witness for C5: re-wrapping the fully wrapped selection in
`[codeBlock[p0]]` changes nothing. -/
theorem claim_C5_witness :
    getValue [Item.cb [Item.blk 0]] [Loc.inCb 0 0] = true ∧
    [Loc.inCb 0 0].filter (fun b => (findBlockLoc [Item.cb [Item.blk 0]] b).isSome ||
      checkCanBeBlocked [Item.cb [Item.blk 0]] b) = [Loc.inCb 0 0] ∧
    applyBlock [Item.cb [Item.blk 0]] [Loc.inCb 0 0] = some [Item.cb [Item.blk 0]] :=
  claim_C5 [Item.cb [Item.blk 0]] [Loc.inCb 0 0]
    (fun l hl => by
      rw [List.mem_singleton] at hl
      subst hl
      exact ⟨0, 0, rfl, [Item.blk 0], rfl⟩)
    (by decide) (by decide)

/-! ## Shift lemmas: working on a suffix of the document -/

lemma posBefore_shift (k : Nat) (l : Loc) :
    posBefore (shiftLoc k l) = shiftPos k (posBefore l) := by
  cases l <;> rfl

lemma posAfter_shift (k : Nat) (l : Loc) :
    posAfter (shiftLoc k l) = shiftPos k (posAfter l) := by
  cases l <;> rfl

lemma shiftLoc_inj (k : Nat) {a b : Loc} (h : shiftLoc k a = shiftLoc k b) : a = b := by
  cases a <;> cases b <;> simp [shiftLoc] at h ⊢ <;> omega

lemma nextSiblingLoc_shift (d1 d2 : Doc) (l : Loc) :
    nextSiblingLoc (d1 ++ d2) (shiftLoc d1.length l) =
      (nextSiblingLoc d2 l).map (shiftLoc d1.length) := by
  cases l with
  | root i =>
    simp only [shiftLoc, nextSiblingLoc, List.length_append]
    by_cases h : i + 1 < d2.length
    · rw [if_pos (by omega), if_pos h]
      simp [shiftLoc]
      omega
    · rw [if_neg (by omega), if_neg h]
      simp
  | inCb i j =>
    simp only [shiftLoc, nextSiblingLoc]
    rw [List.getElem?_append_right (by omega)]
    rw [show d1.length + i - d1.length = i by omega]
    cases hd : d2[i]? with
    | none => simp
    | some it =>
      cases it with
      | blk b => simp
      | cb cs =>
        by_cases h : j + 1 < cs.length
        · simp [h, shiftLoc]
        · simp [h]

lemma getD_map_shiftPos (k : Nat) (sp : Option Pos) (p : Pos) :
    (sp.map (shiftPos k)).getD (shiftPos k p) = shiftPos k (sp.getD p) := by
  cases sp <;> rfl

lemma rangesGo_shift (d1 d2 : Doc) : ∀ (sel : List Loc) (sp : Option Pos),
    rangesGo (d1 ++ d2) (sp.map (shiftPos d1.length)) (sel.map (shiftLoc d1.length)) =
      (rangesGo d2 sp sel).map (shiftRange d1.length)
  | [], _ => by simp [rangesGo]
  | [b], sp => by
    rw [List.map_singleton, rangesGo_single, rangesGo_single, List.map_singleton]
    rw [posBefore_shift, posAfter_shift, getD_map_shiftPos]
    rfl
  | b :: nb :: rest, sp => by
    rw [List.map_cons, List.map_cons, rangesGo_cons2, rangesGo_cons2]
    rw [nextSiblingLoc_shift]
    by_cases h : nextSiblingLoc d2 b = some nb
    · rw [if_pos h, if_pos (by rw [h]; rfl)]
      have ih := rangesGo_shift d1 d2 (nb :: rest) (some (sp.getD (posBefore b)))
      rw [List.map_cons] at ih
      rw [posBefore_shift, getD_map_shiftPos]
      exact ih
    · have h2 : ¬((nextSiblingLoc d2 b).map (shiftLoc d1.length) = some (shiftLoc d1.length nb)) := by
        intro hc
        cases hns : nextSiblingLoc d2 b with
        | none => rw [hns] at hc; simp at hc
        | some x =>
          rw [hns] at hc
          have hx : shiftLoc d1.length x = shiftLoc d1.length nb := by simpa using hc
          rw [shiftLoc_inj d1.length hx] at hns
          exact h hns
      rw [if_neg h2, if_neg h]
      rw [List.map_cons]
      have ih := rangesGo_shift d1 d2 (nb :: rest) none
      rw [List.map_cons] at ih
      rw [posBefore_shift, posAfter_shift, getD_map_shiftPos]
      exact congrArg₂ List.cons rfl ih

lemma rootRun_shift (a s n : Nat) :
    rootRun (a + s) n = (rootRun s n).map (shiftLoc a) := by
  simp only [rootRun, List.map_map]
  refine List.map_congr_left ?_
  intro j _
  simp only [Function.comp_apply, shiftLoc]
  congr 1
  omega

lemma inCbRun_shift (a i s n : Nat) :
    inCbRun (a + i) s n = (inCbRun i s n).map (shiftLoc a) := by
  simp only [inCbRun, List.map_map]
  refine List.map_congr_left ?_
  intro j _
  simp [Function.comp_apply, shiftLoc]

lemma segSel_shift (a : Nat) : ∀ (segs : List (Nat × Nat)) (k : Nat),
    segSel (a + k) segs = (segSel k segs).map (shiftLoc a)
  | [], _ => rfl
  | (g, n) :: rest, k => by
    rw [segSel, segSel, List.map_append]
    congr 1
    · rw [show a + k + g = a + (k + g) by omega, rootRun_shift]
    · rw [show a + k + g + n = a + (k + g + n) by omega, segSel_shift a rest (k + g + n)]

lemma segSelCb_shift (a : Nat) : ∀ (segs : List (Nat × Nat)) (k : Nat),
    segSelCb (a + k) segs = (segSelCb k segs).map (shiftLoc a)
  | [], _ => rfl
  | (g, n) :: rest, k => by
    rw [segSelCb, segSelCb, List.map_append]
    congr 1
    · rw [show a + k + g = a + (k + g) by omega, inCbRun_shift]
    · rw [show a + k + g + 1 = a + (k + g + 1) by omega, segSelCb_shift a rest (k + g + 1)]

lemma absRanges_shift (a : Nat) : ∀ (segs : List (Nat × Nat)) (k : Nat),
    absRanges (a + k) segs = (absRanges k segs).map (shiftRange a)
  | [], _ => rfl
  | (g, n) :: rest, k => by
    rw [absRanges, absRanges, List.map_cons]
    congr 1
    · simp only [shiftRange, shiftPos]
      congr 2 <;> omega
    · rw [show a + k + g + n = a + (k + g + n) by omega, absRanges_shift a rest (k + g + n)]

lemma cbRanges_shift (a : Nat) : ∀ (segs : List (Nat × Nat)) (k : Nat),
    cbRanges (a + k) segs = (cbRanges k segs).map (shiftRange a)
  | [], _ => rfl
  | (g, n) :: rest, k => by
    rw [cbRanges, cbRanges, List.map_cons]
    congr 1
    · simp only [shiftRange, shiftPos]
      congr 3 <;> omega
    · rw [show a + k + g + 1 = a + (k + g + 1) by omega, cbRanges_shift a rest (k + g + 1)]

lemma segRefs_add (a : Nat) : ∀ (segs : List (Nat × Nat)) (k : Nat),
    segRefs (a + k) segs = (segRefs k segs).map (fun r => a + r)
  | [], _ => rfl
  | (g, n) :: rest, k => by
    rw [segRefs, segRefs, List.map_cons]
    congr 1
    · omega
    · rw [show a + k + g + 1 = a + (k + g + 1) by omega, segRefs_add a rest (k + g + 1)]

lemma rootRun_one (s : Nat) : rootRun s 1 = [Loc.root s] := by
  simp only [rootRun]
  rw [show List.range 1 = [0] from rfl]
  simp

lemma rootRun_succ (s n : Nat) : rootRun s (n + 1) = Loc.root s :: rootRun (s + 1) n := by
  have harith : (fun k => Loc.root (s + (k + 1))) = (fun k => Loc.root (s + 1 + k)) := by
    funext k
    congr 1
    omega
  simp only [rootRun, List.range_succ_eq_map, List.map_cons, List.map_map, Nat.add_zero]
  congr 1
  rw [show ((fun k => Loc.root (s + k)) ∘ Nat.succ) = fun k => Loc.root (s + (k + 1)) from rfl,
    harith]

lemma rangesGo_rootRun_cont (doc : Doc) : ∀ (n s : Nat) (sp : Option Pos) (rest : List Loc),
    0 < n → s + n ≤ doc.length →
    (∀ b, rest.head? = some b → b ≠ Loc.root (s + n)) →
    rangesGo doc sp (rootRun s n ++ rest) =
      ⟨sp.getD ⟨none, s⟩, ⟨none, s + n⟩⟩ :: rangesGo doc none rest
  | 0, _, _, _, h, _, _ => absurd h (by omega)
  | 1, s, sp, rest, _, hlen, hbound => by
    rw [rootRun_one]
    cases rest with
    | nil => rw [List.append_nil, rangesGo_single]; rfl
    | cons b rest' =>
      rw [List.cons_append, List.nil_append, rangesGo_cons2]
      have hns : ¬(nextSiblingLoc doc (Loc.root s) = some b) := by
        intro hc
        simp only [nextSiblingLoc] at hc
        by_cases hlt : s + 1 < doc.length
        · rw [if_pos hlt] at hc
          simp only [Option.some_inj] at hc
          exact hbound b rfl hc.symm
        · rw [if_neg hlt] at hc
          exact Option.noConfusion hc
      rw [if_neg hns]
      rfl
  | (m + 2), s, sp, rest, _, hlen, hbound => by
    rw [rootRun_succ, rootRun_succ, List.cons_append, List.cons_append, rangesGo_cons2]
    have hadj : nextSiblingLoc doc (Loc.root s) = some (Loc.root (s + 1)) := by
      simp only [nextSiblingLoc]
      rw [if_pos (by omega)]
    rw [if_pos hadj]
    have hpos : 0 < m + 1 := by omega
    have hlen2 : (s + 1) + (m + 1) ≤ doc.length := by omega
    have hbound2 : ∀ b, rest.head? = some b → b ≠ Loc.root ((s + 1) + (m + 1)) := by
      intro b hb hcon
      exact hbound b hb (by rw [hcon]; congr 1; omega)
    have ih := rangesGo_rootRun_cont doc (m + 1) (s + 1)
      (some (sp.getD (posBefore (Loc.root s)))) rest hpos hlen2 hbound2
    rw [rootRun_succ, List.cons_append] at ih
    rw [ih]
    simp only [posBefore, Option.getD_some]
    have harith2 : s + 1 + (m + 1) = s + (m + 2) := by omega
    rw [harith2]

lemma rangesGo_inCbRun_cont (doc : Doc) (i : Nat) (cs : List Item)
    (hc : doc[i]? = some (.cb cs)) : ∀ (n s : Nat) (sp : Option Pos) (rest : List Loc),
    0 < n → s + n = cs.length →
    rangesGo doc sp (inCbRun i s n ++ rest) =
      ⟨sp.getD ⟨some i, s⟩, ⟨some i, s + n⟩⟩ :: rangesGo doc none rest
  | 0, _, _, _, h, _ => absurd h (by omega)
  | 1, s, sp, rest, _, hlen => by
    rw [inCbRun_one]
    cases rest with
    | nil => rw [List.append_nil, rangesGo_single]; rfl
    | cons b rest' =>
      rw [List.cons_append, List.nil_append, rangesGo_cons2]
      have hns : ¬(nextSiblingLoc doc (Loc.inCb i s) = some b) := by
        intro hcon
        simp only [nextSiblingLoc, hc] at hcon
        rw [if_neg (by omega)] at hcon
        exact Option.noConfusion hcon
      rw [if_neg hns]
      rfl
  | (m + 2), s, sp, rest, _, hlen => by
    rw [inCbRun_succ, inCbRun_succ, List.cons_append, List.cons_append, rangesGo_cons2]
    have hadj : nextSiblingLoc doc (Loc.inCb i s) = some (Loc.inCb i (s + 1)) := by
      simp only [nextSiblingLoc, hc]
      rw [if_pos (by omega)]
    rw [if_pos hadj]
    have hpos : 0 < m + 1 := by omega
    have hlen2 : (s + 1) + (m + 1) = cs.length := by omega
    have ih := rangesGo_inCbRun_cont doc i cs hc (m + 1) (s + 1)
      (some (sp.getD (posBefore (Loc.inCb i s)))) rest hpos hlen2
    rw [inCbRun_succ, List.cons_append] at ih
    rw [ih]
    simp only [posBefore, Option.getD_some]
    have harith2 : s + 1 + (m + 1) = s + (m + 2) := by omega
    rw [harith2]

lemma segSel_head (k g n : Nat) (rest : List (Nat × Nat)) (hn : 0 < n) :
    (segSel k ((g, n) :: rest)).head? = some (Loc.root (k + g)) := by
  obtain ⟨m, rfl⟩ : ∃ m, n = m + 1 := ⟨n - 1, by omega⟩
  rw [segSel, rootRun_succ, List.cons_append, List.head?_cons]

lemma rangesGo_segSel : ∀ (segs : List (Nat × Nat)) (doc : Doc) (b : Bool),
    SegsOk doc.length b segs →
    rangesGo doc none (segSel 0 segs) = absRanges 0 segs
  | [], _, _, _ => rfl
  | (g, n) :: rest, doc, b, hok => by
    obtain ⟨-, hn, hle, hrest⟩ := hok
    rw [segSel, absRanges]
    rw [show (0 : Nat) + g = g from by omega]
    have hbound : ∀ bb, (segSel (g + n) rest).head? = some bb → bb ≠ Loc.root (g + n) := by
      intro bb hbb hcon
      cases rest with
      | nil => simp [segSel] at hbb
      | cons p rest' =>
        obtain ⟨g', n'⟩ := p
        obtain ⟨hg', hn', -, -⟩ := hrest
        rw [segSel_head (g + n) g' n' rest' hn'] at hbb
        rw [Option.some_inj] at hbb
        rw [← hbb] at hcon
        simp only [Loc.root.injEq] at hcon
        rcases hg' with hg' | hg'
        · exact Bool.noConfusion hg'
        · omega
    have hmain := rangesGo_rootRun_cont doc n g none (segSel (g + n) rest) hn hle hbound
    rw [hmain]
    have htail : rangesGo doc none (segSel (g + n) rest) = absRanges (g + n) rest := by
      have hlen1 : (doc.take (g + n)).length = g + n := by
        rw [List.length_take]
        omega
      have hsel : segSel (g + n) rest = (segSel 0 rest).map (shiftLoc (g + n)) := by
        have h := segSel_shift (g + n) rest 0
        rwa [Nat.add_zero] at h
      have hs := rangesGo_shift (doc.take (g + n)) (doc.drop (g + n)) (segSel 0 rest) none
      rw [hlen1, List.take_append_drop] at hs
      have hs2 : rangesGo doc none ((segSel 0 rest).map (shiftLoc (g + n))) =
          (rangesGo (doc.drop (g + n)) none (segSel 0 rest)).map (shiftRange (g + n)) := hs
      have ih := rangesGo_segSel rest (doc.drop (g + n)) false
        (by rw [List.length_drop]; exact hrest)
      rw [hsel, hs2, ih]
      have habs := absRanges_shift (g + n) rest 0
      rw [Nat.add_zero] at habs
      exact habs.symm
    rw [htail]
    rfl

lemma segRefs_ge : ∀ (segs : List (Nat × Nat)) (m : Nat), ∀ r ∈ segRefs m segs, m ≤ r
  | [], m, r, hr => by simp [segRefs] at hr
  | (g, n) :: rest, m, r, hr => by
    rw [segRefs] at hr
    rcases List.mem_cons.mp hr with h | h
    · omega
    · have := segRefs_ge rest (m + g + 1) r h
      omega

lemma shiftRefs_segRefs (k g n : Nat) (rest : List (Nat × Nat)) (hn : 0 < n) :
    shiftRefs (k + g) (k + g + n) (segRefs (k + g + n) rest) = segRefs (k + g + 1) rest := by
  have hsplit : segRefs (k + g + n) rest =
      (segRefs (k + g + 1) rest).map (fun r => (n - 1) + r) := by
    have h := segRefs_add (n - 1) rest (k + g + 1)
    rw [show n - 1 + (k + g + 1) = k + g + n by omega] at h
    exact h
  rw [hsplit, shiftRefs, List.map_map]
  have hpt : ∀ r ∈ segRefs (k + g + 1) rest,
      ((fun r => if k + g + n ≤ r then r - (k + g + n - (k + g) - 1) else r) ∘
        (fun r => (n - 1) + r)) r = r := by
    intro r hr
    have hge := segRefs_ge rest (k + g + 1) r hr
    simp only [Function.comp_apply]
    rw [if_pos (by omega)]
    omega
  rw [List.map_congr_left hpt]
  simp

lemma applyGroup_wrap (D : Doc) (R : List Nat) (s e : Nat) :
    applyGroup (D, R) ⟨⟨none, s⟩, ⟨none, e⟩⟩ =
      (D.take s ++ Item.cb ((D.drop s).take (e - s)) :: D.drop e, s :: shiftRefs s e R) := by
  simp [applyGroup, findBlockPos]

lemma wrapFold_eq : ∀ (segs : List (Nat × Nat)) (d1 d2 : Doc) (b : Bool),
    SegsOk d2.length b segs →
    ((absRanges d1.length segs).reverse).foldl applyGroup (d1 ++ d2, []) =
      (d1 ++ segWrap d2 segs, segRefs d1.length segs)
  | [], d1, d2, _, _ => by simp [absRanges, segRefs, segWrap]
  | (g, n) :: rest, d1, d2, b, hok => by
    obtain ⟨-, hn, hle, hrest⟩ := hok
    have htake_len : (d2.take (g + n)).length = g + n := by
      rw [List.length_take]
      omega
    have hA_len : (d1 ++ d2.take (g + n)).length = d1.length + g + n := by
      rw [List.length_append, htake_len]
      omega
    have hinner := wrapFold_eq rest (d1 ++ d2.take (g + n)) (d2.drop (g + n)) false
      (by rw [List.length_drop]; exact hrest)
    rw [hA_len] at hinner
    simp only [List.append_assoc] at hinner
    rw [List.take_append_drop] at hinner
    rw [absRanges, List.reverse_cons, List.foldl_concat, hinner, segWrap, segRefs,
      applyGroup_wrap]
    have h2 : d1.length + g + n - (d1.length + g) = n := by omega
    have h1 : (d1 ++ (d2.take (g + n) ++ segWrap (d2.drop (g + n)) rest)).take (d1.length + g) =
        d1 ++ d2.take g := by
      rw [List.take_append_eq_append_take,
        List.take_of_length_le (by omega : d1.length ≤ d1.length + g),
        show d1.length + g - d1.length = g by omega,
        List.take_append_eq_append_take, List.take_take,
        show g ⊓ (g + n) = g by omega, htake_len,
        show g - (g + n) = 0 by omega]
      simp
    have h3 : (d1 ++ (d2.take (g + n) ++ segWrap (d2.drop (g + n)) rest)).drop (d1.length + g) =
        (d2.drop g).take n ++ segWrap (d2.drop (g + n)) rest := by
      rw [List.drop_append_eq_append_drop,
        List.drop_of_length_le (by omega : d1.length ≤ d1.length + g),
        show d1.length + g - d1.length = g by omega, List.nil_append,
        List.drop_append_eq_append_drop, htake_len,
        show g - (g + n) = 0 by omega, List.drop_take,
        show g + n - g = n by omega, List.drop_zero]
    have hslice_len : ((d2.drop g).take n).length = n := by
      rw [List.length_take, List.length_drop]
      omega
    have h4 : ((d2.drop g).take n ++ segWrap (d2.drop (g + n)) rest).take n =
        (d2.drop g).take n := by
      rw [List.take_append_eq_append_take, List.take_of_length_le (le_of_eq hslice_len),
        hslice_len, show n - n = 0 by omega]
      simp
    have h5 : (d1 ++ (d2.take (g + n) ++ segWrap (d2.drop (g + n)) rest)).drop
        (d1.length + g + n) = segWrap (d2.drop (g + n)) rest := by
      rw [List.drop_append_eq_append_drop,
        List.drop_of_length_le (by omega : d1.length ≤ d1.length + g + n),
        show d1.length + g + n - d1.length = g + n by omega, List.nil_append,
        List.drop_append_eq_append_drop, htake_len, List.drop_take,
        show g + n - (g + n) = 0 by omega]
      simp
    rw [h1, h2, h3, h4, h5, shiftRefs_segRefs d1.length g n rest hn]
    rw [List.append_assoc]

lemma mergeStep_gapped : ∀ (refs : List Nat) (doc : Doc) (c : Nat),
    List.Chain' (fun a b => a + 2 ≤ b) (c :: refs) →
    mergeStep doc (.idx c) (refs.map .idx) id = doc
  | [], _, _, _ => rfl
  | m :: rest, doc, c, hchain => by
    rw [List.chain'_cons] at hchain
    obtain ⟨hab, htail⟩ := hchain
    show mergeStep doc (.idx c) (.idx m :: rest.map .idx) id = doc
    simp only [mergeStep, id_eq]
    rw [if_neg (by omega)]
    exact mergeStep_gapped rest doc m htail

lemma segRefs_chain : ∀ (segs : List (Nat × Nat)) (len : Nat) (bb : Bool) (m : Nat),
    SegsOk len bb segs →
    List.Chain' (fun a b => a + 2 ≤ b) (segRefs m segs)
  | [], _, _, _, _ => List.chain'_nil
  | (g, n) :: rest, len, bb, m, hok => by
    obtain ⟨-, -, -, hrest⟩ := hok
    rw [segRefs, List.chain'_cons']
    constructor
    · intro y hy
      cases rest with
      | nil => simp [segRefs] at hy
      | cons p rest' =>
        obtain ⟨g', n'⟩ := p
        obtain ⟨hg', -, -, -⟩ := hrest
        rw [segRefs, List.head?_cons, Option.mem_some_iff] at hy
        rcases hg' with hg' | hg'
        · exact Bool.noConfusion hg'
        · omega
    · exact segRefs_chain rest (len - (g + n)) false (m + g + 1) hrest

lemma segSel_all_root : ∀ (segs : List (Nat × Nat)) (k : Nat),
    ∀ l ∈ segSel k segs, ∃ i, l = Loc.root i
  | [], _, l, hl => by simp [segSel] at hl
  | (g, n) :: rest, k, l, hl => by
    rw [segSel, List.mem_append] at hl
    rcases hl with hl | hl
    · rw [rootRun, List.mem_map] at hl
      obtain ⟨j, -, rfl⟩ := hl
      exact ⟨k + g + j, rfl⟩
    · exact segSel_all_root rest (k + g + n) l hl

/-- The Wrap path on a segment selection of bare root blocks: every group
wraps into a new container, the recorded references are separated by at
least one item, the merge pass does nothing, and the result is `segWrap`. -/
lemma executeWrap_segs (doc : Doc) (segs : List (Nat × Nat))
    (hok : SegsOk doc.length true segs) (hne : segs ≠ []) :
    executeCmd doc (segSel 0 segs) = some (segWrap doc segs) := by
  obtain ⟨⟨g, n⟩, rest, rfl⟩ : ∃ p rest, segs = p :: rest := by
    cases segs with
    | nil => exact absurd rfl hne
    | cons p rest => exact ⟨p, rest, rfl⟩
  obtain ⟨-, hn, hle, hrest⟩ := id hok
  have hval : getValue doc (segSel 0 ((g, n) :: rest)) = false := by
    unfold getValue
    rw [segSel_head 0 g n rest hn]
    simp [findBlockLoc]
  have hfilter : (segSel 0 ((g, n) :: rest)).filter
      (fun b => (findBlockLoc doc b).isSome || checkCanBeBlocked doc b) =
        segSel 0 ((g, n) :: rest) := by
    rw [List.filter_eq_self]
    intro l hl
    obtain ⟨i, rfl⟩ := segSel_all_root _ _ l hl
    rw [checkCanBeBlocked_root]
    simp
  rw [executeCmd, if_neg (by rw [hval]; exact Bool.false_ne_true), hfilter]
  have hranges : getRangesOfBlockGroups doc (segSel 0 ((g, n) :: rest)) =
      absRanges 0 ((g, n) :: rest) :=
    rangesGo_segSel ((g, n) :: rest) doc true hok
  simp only [applyBlock, hranges]
  have hfold2 : ((absRanges 0 ((g, n) :: rest)).reverse).foldl applyGroup (doc, []) =
      (segWrap doc ((g, n) :: rest), segRefs 0 ((g, n) :: rest)) := by
    have h := wrapFold_eq ((g, n) :: rest) [] doc true hok
    simpa using h
  rw [hfold2]
  have hchain := segRefs_chain ((g, n) :: rest) doc.length true 0 hok
  rw [segRefs] at hchain ⊢
  exact congrArg some (mergeStep_gapped _ _ _ hchain)

lemma isCbItem_eq_false_of_blk {it : Item} (h : isBlkItem it = true) : isCbItem it = false := by
  cases it with
  | blk b => rfl
  | cb cs => exact Bool.noConfusion h

lemma allBlk_no_adjacent : ∀ (doc : Doc), (∀ it ∈ doc, isBlkItem it = true) →
    hasAdjacentCbs doc = false
  | [], _ => rfl
  | [x], _ => rfl
  | x :: y :: rest, h => by
    rw [hasAdjacentCbs]
    rw [isCbItem_eq_false_of_blk (h x (by simp))]
    simp only [Bool.false_and, Bool.false_or]
    exact allBlk_no_adjacent (y :: rest) (fun it hit => h it (List.mem_cons_of_mem x hit))

lemma hasAdjacentCbs_append_blk : ∀ (xs ys : Doc), (∀ x ∈ xs, isBlkItem x = true) →
    hasAdjacentCbs (xs ++ ys) = hasAdjacentCbs ys
  | [], _, _ => rfl
  | [x], ys, h => by
    cases ys with
    | nil => rfl
    | cons y ys' =>
      show hasAdjacentCbs (x :: y :: ys') = hasAdjacentCbs (y :: ys')
      rw [hasAdjacentCbs, isCbItem_eq_false_of_blk (h x (by simp))]
      simp
  | x :: x' :: xs', ys, h => by
    show hasAdjacentCbs (x :: (x' :: (xs' ++ ys))) = hasAdjacentCbs ys
    rw [hasAdjacentCbs, isCbItem_eq_false_of_blk (h x (by simp))]
    simp only [Bool.false_and, Bool.false_or]
    exact hasAdjacentCbs_append_blk (x' :: xs') ys
      (fun z hz => h z (List.mem_cons_of_mem x hz))

lemma segWrap_no_adj_aux : ∀ (segs : List (Nat × Nat)) (doc : Doc),
    SegsOk doc.length false segs →
    (∀ it ∈ doc, isBlkItem it = true) →
    hasAdjacentCbs (segWrap doc segs) = false ∧
      (∀ y, (segWrap doc segs).head? = some y → isBlkItem y = true)
  | [], doc, _, hall =>
    ⟨allBlk_no_adjacent doc hall, fun y hy => by
      rw [segWrap] at hy
      cases doc with
      | nil => exact Option.noConfusion hy
      | cons d doc' =>
        rw [List.head?_cons, Option.some_inj] at hy
        rw [← hy]
        exact hall d (by simp)⟩
  | (g, n) :: rest, doc, hok, hall => by
    obtain ⟨hg, hn, hle, hrest⟩ := hok
    have hg0 : 0 < g := by
      rcases hg with hg | hg
      · exact Bool.noConfusion hg
      · exact hg
    have htake_blk : ∀ x ∈ doc.take g, isBlkItem x = true :=
      fun x hx => hall x (List.take_subset g doc hx)
    have ih := segWrap_no_adj_aux rest (doc.drop (g + n))
      (by rw [List.length_drop]; exact hrest)
      (fun it hit => hall it (List.drop_subset (g + n) doc hit))
    rw [segWrap]
    constructor
    · rw [hasAdjacentCbs_append_blk _ _ htake_blk]
      cases hT : segWrap (doc.drop (g + n)) rest with
      | nil => rfl
      | cons y T' =>
        rw [hasAdjacentCbs]
        have hy : isBlkItem y = true := ih.2 y (by rw [hT]; rfl)
        rw [isCbItem_eq_false_of_blk hy]
        simp only [Bool.and_false, Bool.false_or]
        have h1 := ih.1
        rw [hT] at h1
        exact h1
    · intro y hy
      cases doc with
      | nil => simp at hle; omega
      | cons d doc' =>
        obtain ⟨m, rfl⟩ : ∃ m, g = m + 1 := ⟨g - 1, by omega⟩
        rw [show List.take (m + 1) (d :: doc') = d :: List.take m doc' from rfl,
          List.cons_append, List.head?_cons, Option.some_inj] at hy
        rw [← hy]
        exact hall d (by simp)

lemma hasAdj_cb_cons (cs : List Item) (rest : List (Nat × Nat)) (D : Doc)
    (hok : SegsOk D.length false rest)
    (hall : ∀ it ∈ D, isBlkItem it = true) :
    hasAdjacentCbs (Item.cb cs :: segWrap D rest) = false := by
  have ih := segWrap_no_adj_aux rest D hok hall
  cases hT : segWrap D rest with
  | nil => rfl
  | cons y T' =>
    rw [hasAdjacentCbs]
    have hy : isBlkItem y = true := ih.2 y (by rw [hT]; rfl)
    rw [isCbItem_eq_false_of_blk hy]
    simp only [Bool.and_false, Bool.false_or]
    have h1 := ih.1
    rw [hT] at h1
    exact h1

lemma segWrap_no_adjacent : ∀ (segs : List (Nat × Nat)) (doc : Doc),
    SegsOk doc.length true segs →
    (∀ it ∈ doc, isBlkItem it = true) →
    hasAdjacentCbs (segWrap doc segs) = false
  | [], doc, _, hall => allBlk_no_adjacent doc hall
  | (g, n) :: rest, doc, hok, hall => by
    obtain ⟨-, hn, hle, hrest⟩ := hok
    rw [segWrap]
    rw [hasAdjacentCbs_append_blk _ _ (fun x hx => hall x (List.take_subset g doc hx))]
    exact hasAdj_cb_cons _ rest (doc.drop (g + n))
      (by rw [List.length_drop]; exact hrest)
      (fun it hit => hall it (List.drop_subset (g + n) doc hit))

/-- **C4 (counterexample).** The merge invariant as stated is false: in
`[codeBlock[p0], p1]` with only the bare block `p1` selected, the Wrap path
runs (`value` is false), wraps `p1` into a new container right after the
pre-existing container, and the merge pass — which only compares the
containers recorded for the processed groups — does not touch the
pre-existing one, leaving two sibling `codeBlock`s directly adjacent in
the affected region. -/
theorem claim_C4_counterexample :
    getValue [Item.cb [Item.blk 0], Item.blk 1] [Loc.root 1] = false ∧
    executeCmd [Item.cb [Item.blk 0], Item.blk 1] [Loc.root 1] =
      some [Item.cb [Item.blk 0], Item.cb [Item.blk 1]] ∧
    hasAdjacentCbs [Item.cb [Item.blk 0], Item.cb [Item.blk 1]] = true := by
  refine ⟨by decide, by decide, by decide⟩

/-- **C4 (amended).** After a Wrap over any selection of bare blocks (in
maximal-run segment form) in a document whose root contains no pre-existing
container, no two sibling container nodes of the same type are directly
adjacent anywhere: each group wraps into one new container, consecutive
recorded containers are separated by at least one unselected block, and
the merge pass leaves the document as `segWrap` produces it, which is
adjacency-free.  (When a pre-existing container borders the wrapped
region it is not recorded for any group, is never compared by the merge
pass, and may remain adjacent to a new container — the counterexample.)
`segSel_complete` (below) shows the segment form covers every strictly
increasing in-bounds selection of root indices. -/
theorem claim_C4 (doc : Doc) (segs : List (Nat × Nat))
    (hok : SegsOk doc.length true segs) (hne : segs ≠ [])
    (hall : ∀ it ∈ doc, isBlkItem it = true) :
    executeCmd doc (segSel 0 segs) = some (segWrap doc segs) ∧
    hasAdjacentCbs (segWrap doc segs) = false :=
  ⟨executeWrap_segs doc segs hok hne, segWrap_no_adjacent segs doc hok hall⟩

/-- Witness for C4 (amended): wrapping the selection `{p0, p2}` of
`[p0, p1, p2]` produces `[codeBlock[p0], p1, codeBlock[p2]]`, with no two
containers adjacent. -/
theorem claim_C4_witness :
    executeCmd [Item.blk 0, Item.blk 1, Item.blk 2] (segSel 0 [(0, 1), (1, 1)]) =
      some (segWrap [Item.blk 0, Item.blk 1, Item.blk 2] [(0, 1), (1, 1)]) ∧
    hasAdjacentCbs (segWrap [Item.blk 0, Item.blk 1, Item.blk 2] [(0, 1), (1, 1)]) = false :=
  claim_C4 [Item.blk 0, Item.blk 1, Item.blk 2] [(0, 1), (1, 1)]
    ⟨Or.inl rfl, by decide, by decide, Or.inr (by decide), by decide, by decide, trivial⟩
    (by decide) (by decide)

lemma segWrap_get_cb (doc : Doc) (g n : Nat) (rest : List (Nat × Nat))
    (hle : g + n ≤ doc.length) :
    (doc.take g ++ Item.cb ((doc.drop g).take n) :: segWrap (doc.drop (g + n)) rest)[g]? =
      some (Item.cb ((doc.drop g).take n)) := by
  have hA : (doc.take g).length = g := by
    rw [List.length_take]
    omega
  rw [List.getElem?_append_right (le_of_eq hA), hA, show g - g = 0 by omega]
  simp

lemma findBlockLoc_shift (d1 d2 : Doc) (l : Loc) :
    findBlockLoc (d1 ++ d2) (shiftLoc d1.length l) =
      (findBlockLoc d2 l).map (fun i => d1.length + i) := by
  cases l with
  | root i => rfl
  | inCb i j =>
    simp only [shiftLoc, findBlockLoc]
    rw [List.getElem?_append_right (by omega), show d1.length + i - d1.length = i by omega]
    cases hd : d2[i]? with
    | none => simp
    | some it => cases it <;> simp

lemma unwrapRanges_eq : ∀ (segs : List (Nat × Nat)) (doc : Doc) (bb : Bool),
    SegsOk doc.length bb segs →
    rangesGo (segWrap doc segs) none (segSelCb 0 segs) = cbRanges 0 segs
  | [], _, _, _ => rfl
  | (g, n) :: rest, doc, bb, hok => by
    obtain ⟨-, hn, hle, hrest⟩ := hok
    rw [segWrap, segSelCb, cbRanges, show (0 : Nat) + g = g from by omega]
    have hslice_len : ((doc.drop g).take n).length = n := by
      rw [List.length_take, List.length_drop]
      omega
    have hget := segWrap_get_cb doc g n rest hle
    have hlen0 : 0 + n = ((doc.drop g).take n).length := by
      rw [hslice_len]
      omega
    have hmain := rangesGo_inCbRun_cont
      (doc.take g ++ Item.cb ((doc.drop g).take n) :: segWrap (doc.drop (g + n)) rest)
      g ((doc.drop g).take n) hget n 0 none (segSelCb (g + 1) rest) hn hlen0
    rw [hmain]
    congr 1
    · rw [show (0 : Nat) + n = n from by omega]
      rfl
    · have hd1_len : (doc.take g ++ [Item.cb ((doc.drop g).take n)]).length = g + 1 := by
        rw [List.length_append, List.length_take]
        simp
        omega
      have hsel : segSelCb (g + 1) rest = (segSelCb 0 rest).map (shiftLoc (g + 1)) := by
        have h := segSelCb_shift (g + 1) rest 0
        rwa [Nat.add_zero] at h
      have hs := rangesGo_shift (doc.take g ++ [Item.cb ((doc.drop g).take n)])
        (segWrap (doc.drop (g + n)) rest) (segSelCb 0 rest) none
      rw [hd1_len] at hs
      simp only [List.append_assoc, List.singleton_append] at hs
      have hs2 : rangesGo
          (doc.take g ++ Item.cb ((doc.drop g).take n) :: segWrap (doc.drop (g + n)) rest)
          none ((segSelCb 0 rest).map (shiftLoc (g + 1))) =
            (rangesGo (segWrap (doc.drop (g + n)) rest) none (segSelCb 0 rest)).map
              (shiftRange (g + 1)) := hs
      have ih := unwrapRanges_eq rest (doc.drop (g + n)) false
        (by rw [List.length_drop]; exact hrest)
      rw [hsel, hs2, ih]
      have hcb := cbRanges_shift (g + 1) rest 0
      rw [Nat.add_zero] at hcb
      exact hcb.symm

lemma unwrapFold_eq : ∀ (segs : List (Nat × Nat)) (d1 d2 : Doc) (bb : Bool),
    SegsOk d2.length bb segs →
    ((cbRanges d1.length segs).reverse).foldl removeGroup (d1 ++ segWrap d2 segs) = d1 ++ d2
  | [], d1, d2, _, _ => by simp [cbRanges, segWrap]
  | (g, n) :: rest, d1, d2, bb, hok => by
    obtain ⟨-, hn, hle, hrest⟩ := hok
    rw [cbRanges, List.reverse_cons, List.foldl_concat, segWrap]
    have htake_len : (d2.take g).length = g := by
      rw [List.length_take]
      omega
    have hslice_len : ((d2.drop g).take n).length = n := by
      rw [List.length_take, List.length_drop]
      omega
    have hd1' : (d1 ++ (d2.take g ++ [Item.cb ((d2.drop g).take n)])).length =
        d1.length + g + 1 := by
      rw [List.length_append, List.length_append, htake_len]
      simp
      omega
    have hinner := unwrapFold_eq rest
      (d1 ++ (d2.take g ++ [Item.cb ((d2.drop g).take n)])) (d2.drop (g + n)) false
      (by rw [List.length_drop]; exact hrest)
    rw [hd1'] at hinner
    simp only [List.append_assoc, List.singleton_append] at hinner ⊢
    rw [hinner]
    have hX : (d1 ++ (d2.take g ++ Item.cb ((d2.drop g).take n) :: d2.drop (g + n)))[d1.length + g]? = some (Item.cb ((d2.drop g).take n)) := by
      rw [List.getElem?_append_right (by omega),
        show d1.length + g - d1.length = g by omega,
        List.getElem?_append_right (le_of_eq htake_len), htake_len,
        show g - g = 0 by omega]
      simp
    simp only [removeGroup, posIsAtStart, posIsAtEnd, childListAt, hX]
    rw [if_pos (by simp [hslice_len])]
    have htake : (d1 ++ (d2.take g ++ Item.cb ((d2.drop g).take n) :: d2.drop (g + n))).take
        (d1.length + g) = d1 ++ d2.take g := by
      rw [List.take_append_eq_append_take,
        List.take_of_length_le (by omega : d1.length ≤ d1.length + g),
        show d1.length + g - d1.length = g by omega,
        List.take_append_eq_append_take, List.take_take,
        show g ⊓ g = g by omega, htake_len, show g - g = 0 by omega]
      simp
    have hdrop : (d1 ++ (d2.take g ++ Item.cb ((d2.drop g).take n) :: d2.drop (g + n))).drop
        (d1.length + g + 1) = d2.drop (g + n) := by
      rw [List.drop_append_eq_append_drop,
        List.drop_of_length_le (by omega : d1.length ≤ d1.length + g + 1),
        show d1.length + g + 1 - d1.length = g + 1 by omega, List.nil_append,
        List.drop_append_eq_append_drop, List.drop_of_length_le (by rw [htake_len]; omega),
        htake_len, show g + 1 - g = 1 by omega, List.nil_append]
      simp
    rw [htake, hdrop]
    have hjoin : (d2.drop g).take n ++ d2.drop (g + n) = d2.drop g := by
      have hdd : d2.drop (g + n) = (d2.drop g).drop n := by
        rw [List.drop_drop]
      rw [hdd, List.take_append_drop]
    simp only [List.append_assoc]
    rw [hjoin, List.take_append_drop]

lemma segSelCb_head (k g n : Nat) (rest : List (Nat × Nat)) (hn : 0 < n) :
    (segSelCb k ((g, n) :: rest)).head? = some (Loc.inCb (k + g) 0) := by
  obtain ⟨m, rfl⟩ : ∃ m, n = m + 1 := ⟨n - 1, by omega⟩
  rw [segSelCb, inCbRun_succ, List.cons_append, List.head?_cons]

lemma segSelCb_mem : ∀ (segs : List (Nat × Nat)) (doc : Doc) (bb : Bool),
    SegsOk doc.length bb segs →
    ∀ l ∈ segSelCb 0 segs, (findBlockLoc (segWrap doc segs) l).isSome = true
  | [], _, _, _, l, hl => by simp [segSelCb] at hl
  | (g, n) :: rest, doc, bb, hok, l, hl => by
    obtain ⟨-, hn, hle, hrest⟩ := hok
    rw [segSelCb, List.mem_append] at hl
    rw [segWrap]
    have hget := segWrap_get_cb doc g n rest hle
    rcases hl with hl | hl
    · rw [inCbRun, List.mem_map] at hl
      obtain ⟨j, -, rfl⟩ := hl
      rw [show (0 : Nat) + g = g from by omega]
      simp [findBlockLoc, hget]
    · have hsel : segSelCb (g + 1) rest = (segSelCb 0 rest).map (shiftLoc (g + 1)) := by
        have h := segSelCb_shift (g + 1) rest 0
        rwa [Nat.add_zero] at h
      rw [show (0 : Nat) + g + 1 = g + 1 from by omega, hsel, List.mem_map] at hl
      obtain ⟨l0, hl0, rfl⟩ := hl
      have ih := segSelCb_mem rest (doc.drop (g + n)) false
        (by rw [List.length_drop]; exact hrest) l0 hl0
      have hd1_len : (doc.take g ++ [Item.cb ((doc.drop g).take n)]).length = g + 1 := by
        rw [List.length_append, List.length_take]
        simp
        omega
      have hshift := findBlockLoc_shift (doc.take g ++ [Item.cb ((doc.drop g).take n)])
        (segWrap (doc.drop (g + n)) rest) l0
      rw [hd1_len] at hshift
      simp only [List.append_assoc, List.singleton_append] at hshift
      rw [hshift]
      rcases Option.isSome_iff_exists.mp ih with ⟨i0, hi0⟩
      rw [hi0]
      rfl

/-- The Unwrap path over the containers `segWrap` created: each group spans
its container's full content, so every container is unwrapped in place and
the original document is restored. -/
lemma executeUnwrap_segs (doc : Doc) (segs : List (Nat × Nat))
    (hok : SegsOk doc.length true segs) (hne : segs ≠ []) :
    executeCmd (segWrap doc segs) (segSelCb 0 segs) = some doc := by
  obtain ⟨⟨g, n⟩, rest, rfl⟩ : ∃ p rest, segs = p :: rest := by
    cases segs with
    | nil => exact absurd rfl hne
    | cons p rest => exact ⟨p, rest, rfl⟩
  obtain ⟨-, hn, hle, hrest⟩ := id hok
  have hval : getValue (segWrap doc ((g, n) :: rest)) (segSelCb 0 ((g, n) :: rest)) = true := by
    unfold getValue
    rw [segSelCb_head 0 g n rest hn]
    rw [show (0 : Nat) + g = g from by omega]
    rw [segWrap]
    simp [findBlockLoc, segWrap_get_cb doc g n rest hle]
  have hfilter : (segSelCb 0 ((g, n) :: rest)).filter
      (fun b => (findBlockLoc (segWrap doc ((g, n) :: rest)) b).isSome) =
        segSelCb 0 ((g, n) :: rest) := by
    rw [List.filter_eq_self]
    intro l hl
    exact segSelCb_mem ((g, n) :: rest) doc true hok l hl
  rw [executeCmd, if_pos hval, hfilter]
  have hranges : getRangesOfBlockGroups (segWrap doc ((g, n) :: rest))
      (segSelCb 0 ((g, n) :: rest)) = cbRanges 0 ((g, n) :: rest) :=
    unwrapRanges_eq ((g, n) :: rest) doc true hok
  rw [removeBlock, hranges]
  have hfold := unwrapFold_eq ((g, n) :: rest) [] doc true hok
  simpa using hfold

/-- **C6.** Toggle round trip: for every selection of bare root blocks (in
maximal-run segment form — every such block passes the schema guard, while
blocks already inside a container never do), executing Wrap and then
immediately executing Unwrap over the resulting containers restores the
original document exactly: the wrap produces one container per run
(`segWrap`), each unwrap group then spans its container's entire content,
so every created container is removed and the original block sequence and
content return, with none of the created containers remaining.
`segSel_complete` (below) shows the segment form covers every strictly
increasing in-bounds selection of root indices. -/
theorem claim_C6 (doc : Doc) (segs : List (Nat × Nat))
    (hok : SegsOk doc.length true segs) (hne : segs ≠ [])
    (hguard : ∀ l ∈ segSel 0 segs, checkCanBeBlocked doc l = true) :
    executeCmd doc (segSel 0 segs) = some (segWrap doc segs) ∧
    executeCmd (segWrap doc segs) (segSelCb 0 segs) = some doc :=
  ⟨executeWrap_segs doc segs hok hne, executeUnwrap_segs doc segs hok hne⟩

/-- Witness for C6: wrapping `{p0, p1}` and `{p3}` of `[p0, p1, p2, p3]`
and unwrapping the two created containers restores the document. -/
theorem claim_C6_witness :
    executeCmd [Item.blk 0, Item.blk 1, Item.blk 2, Item.blk 3] (segSel 0 [(0, 2), (1, 1)]) =
      some (segWrap [Item.blk 0, Item.blk 1, Item.blk 2, Item.blk 3] [(0, 2), (1, 1)]) ∧
    executeCmd (segWrap [Item.blk 0, Item.blk 1, Item.blk 2, Item.blk 3] [(0, 2), (1, 1)])
      (segSelCb 0 [(0, 2), (1, 1)]) =
        some [Item.blk 0, Item.blk 1, Item.blk 2, Item.blk 3] :=
  claim_C6 [Item.blk 0, Item.blk 1, Item.blk 2, Item.blk 3] [(0, 2), (1, 1)]
    ⟨Or.inl rfl, by decide, by decide, Or.inr (by decide), by decide, by decide, trivial⟩
    (by decide)
    (fun l hl => by
      obtain ⟨i, rfl⟩ := segSel_all_root [(0, 2), (1, 1)] 0 l hl
      exact checkCanBeBlocked_root _ i)

lemma SegsOk_false_of_true (len g n : Nat) (t : List (Nat × Nat)) (hg : 0 < g)
    (hok : SegsOk len true ((g, n) :: t)) : SegsOk len false ((g, n) :: t) := by
  obtain ⟨-, hn, hle, ht⟩ := hok
  exact ⟨Or.inr hg, hn, hle, ht⟩

/-- Completeness of the segment parameterization: every strictly increasing,
in-bounds list of root indices is the segment selection of some well-formed
segment list.  Together with `segSel_all_root` this shows the segment form
covers exactly the selections of bare root-level blocks in document order. -/
lemma segSel_complete : ∀ (l : List Nat) (k L : Nat),
    l.Pairwise (· < ·) → (∀ i ∈ l, k ≤ i ∧ i < L) →
    ∃ segs, l.map Loc.root = segSel k segs ∧ SegsOk (L - k) true segs
  | [], _, _, _, _ => ⟨[], rfl, trivial⟩
  | i :: rest, k, L, hpw, hbnd => by
    rw [List.pairwise_cons] at hpw
    obtain ⟨hlt, hpw'⟩ := hpw
    obtain ⟨hk, hL⟩ := hbnd i (by simp)
    have hbnd' : ∀ j ∈ rest, i + 1 ≤ j ∧ j < L := fun j hj =>
      ⟨hlt j hj, (hbnd j (List.mem_cons_of_mem i hj)).2⟩
    obtain ⟨segs', hsel', hok'⟩ := segSel_complete rest (i + 1) L hpw' hbnd'
    cases segs' with
    | nil =>
      have hrest : rest = [] := by
        have : rest.map Loc.root = [] := hsel'
        exact List.map_eq_nil_iff.mp this
      subst hrest
      refine ⟨[(i - k, 1)], ?_, Or.inl rfl, by omega, by omega, trivial⟩
      rw [List.map_cons, List.map_nil, segSel, segSel,
        show k + (i - k) = i by omega, rootRun_one]
      rfl
    | cons p tail =>
      obtain ⟨g', n'⟩ := p
      cases g' with
      | zero =>
        obtain ⟨-, hn', hle', htail⟩ := id hok'
        refine ⟨(i - k, n' + 1) :: tail, ?_, Or.inl rfl, by omega, by omega, ?_⟩
        · rw [List.map_cons, hsel']
          rw [show segSel k ((i - k, n' + 1) :: tail) =
              rootRun (k + (i - k)) (n' + 1) ++ segSel (k + (i - k) + (n' + 1)) tail from rfl]
          rw [show segSel (i + 1) ((0, n') :: tail) =
              rootRun (i + 1 + 0) n' ++ segSel (i + 1 + 0 + n') tail from rfl]
          rw [show k + (i - k) = i by omega, rootRun_succ,
            show i + 1 + 0 = i + 1 by omega,
            show i + (n' + 1) = i + 1 + n' by omega]
          rfl
        · rw [show L - k - (i - k + (n' + 1)) = L - (i + 1) - (0 + n') by omega]
          exact htail
      | succ g'' =>
        refine ⟨(i - k, 1) :: (g'' + 1, n') :: tail, ?_, Or.inl rfl, by omega, by omega, ?_⟩
        · rw [List.map_cons, hsel']
          rw [show segSel k ((i - k, 1) :: (g'' + 1, n') :: tail) =
              rootRun (k + (i - k)) 1 ++ segSel (k + (i - k) + 1) ((g'' + 1, n') :: tail)
                from rfl]
          rw [show k + (i - k) = i by omega, rootRun_one]
          rfl
        · rw [show L - k - (i - k + 1) = L - (i + 1) by omega]
          exact SegsOk_false_of_true (L - (i + 1)) (g'' + 1) n' tail (by omega) hok'

end CodeBlockCmd
